import Mathlib

/-!
The package filter `pacsift` of pacutils.

A shallow embedding of `src/pacsift.c` (the functions `ptr_cmp`, `_regcomp`,
`filter_filelist`, `filter_str`, `depcmp`, `filter_deplist`, `filter_strlist`,
the `match` macro and `filter_pkgs`) together with the C library and libalpm
functions they call.

Modelling conventions.

* A package record is referred to by its address (`Ptr`, a natural number); the
  records themselves live in a heap `Ptr → alpm_pkg_t`.  Lists of packages are
  lists of addresses, so two list cells holding the same address denote the same
  record, exactly as with `alpm_list_t` cells holding `alpm_pkg_t *`.  Every
  address in a list is that of a record (libalpm never stores NULL there).
  Addresses are those of a platform with 64-bit pointers and a 32-bit `int`:
  `ptr_cmp` returns the difference of two addresses narrowed to `int`.
* C strings are `String`s, compared through their character lists; the
  character classification functions are those of the "C" locale.
* The process-wide globals of pacsift.c (`invert`, `re`, `exact`, `or` and the
  per-field term lists) are collected in the structure `Criteria`.
* `cleanup(1)` terminates the process; a function that may reach it returns
  `Option`, with `none` standing for that fatal exit.
* The POSIX regex engine is a parameter (`Regcomp`): compilation either fails
  or yields the predicate that `regexec` computes for the compiled pattern.
-/

namespace Pacsift

/-! ## C library -/

/-- C `tolower` in the "C" locale. -/
def tolower (c : Char) : Char := c.toLower

/-- C `isdigit`. -/
def isdigit (c : Char) : Bool := c.isDigit

/-- C `isalpha` in the "C" locale. -/
def isalpha (c : Char) : Bool := c.isAlpha

/-- C `isalnum` in the "C" locale. -/
def isalnum (c : Char) : Bool := c.isAlphanum

/-- Sign of the first differing position of two character sequences
(the end of a string being smaller than any character). -/
def strcmp_chars : List Char → List Char → Int
  | [], [] => 0
  | [], _ :: _ => -1
  | _ :: _, [] => 1
  | a :: as, b :: bs =>
    if a = b then strcmp_chars as bs else if a.toNat < b.toNat then -1 else 1

/-- C `strcmp`: negative, zero or positive. -/
def strcmp (s1 s2 : String) : Int := strcmp_chars s1.data s2.data

/-- Case-folding variant of `strcmp_chars`. -/
def strcasecmp_chars : List Char → List Char → Int
  | [], [] => 0
  | [], _ :: _ => -1
  | _ :: _, [] => 1
  | a :: as, b :: bs =>
    if tolower a = tolower b then strcasecmp_chars as bs
    else if (tolower a).toNat < (tolower b).toNat then -1 else 1

/-- C `strcasecmp`: negative, zero or positive. -/
def strcasecmp (s1 s2 : String) : Int := strcasecmp_chars s1.data s2.data

/-- Comparison of at most `n` leading characters. -/
def strncmp_chars : List Char → List Char → Nat → Int
  | _, _, 0 => 0
  | [], [], _ + 1 => 0
  | [], _ :: _, _ + 1 => -1
  | _ :: _, [], _ + 1 => 1
  | a :: as, b :: bs, n + 1 =>
    if a = b then strncmp_chars as bs n else if a.toNat < b.toNat then -1 else 1

/-- C `strncmp`. -/
def strncmp (s1 s2 : String) (n : Nat) : Int := strncmp_chars s1.data s2.data n

/-- C `strlen`. -/
def strlen (s : String) : Nat := s.data.length

/-- Does `needle` start `hay`, ignoring letter case? -/
def starts_nocase : List Char → List Char → Bool
  | [], _ => true
  | _ :: _, [] => false
  | n :: ns, h :: hs => tolower n == tolower h && starts_nocase ns hs

/-- The tail of `hay` at the first case-insensitive occurrence of `needle`. -/
def strcasestr_chars : List Char → List Char → Option (List Char)
  | [], needle => if starts_nocase needle [] then some [] else none
  | h :: hs, needle =>
    if starts_nocase needle (h :: hs) then some (h :: hs) else strcasestr_chars hs needle

/-- GNU `strcasestr`: `some tail` for a match (a non-NULL pointer into the
haystack), `none` for NULL. -/
def strcasestr (haystack needle : String) : Option (List Char) :=
  strcasestr_chars haystack.data needle.data

/-- The regex engine: `regcomp(preg, regex, REG_EXTENDED | REG_ICASE | REG_NOSUB)`
either fails (`none`) or yields a compiled pattern, represented by the predicate
`fun s => regexec(preg, s, 0, NULL, 0) == 0`. -/
abbrev Regcomp := String → Option (String → Bool)

/-! ## libalpm lists -/

/-- Libalpm `alpm_list_add`: append `data` at the end of `list`. -/
def alpm_list_add {α : Type} (list : List α) (data : α) : List α := list ++ [data]

/-- Libalpm `alpm_list_join`: concatenation. -/
def alpm_list_join {α : Type} (first second : List α) : List α := first ++ second

/-- Libalpm `alpm_list_copy`: a shallow copy. -/
def alpm_list_copy {α : Type} (list : List α) : List α := list

/-- Libalpm `alpm_list_remove`: drop the first cell whose data compares equal to
`needle`. -/
def alpm_list_remove {α β : Type} (fn : α → β → Int) : List α → β → List α
  | [], _ => []
  | d :: rest, needle =>
    if fn d needle = 0 then rest else d :: alpm_list_remove fn rest needle

/-- Libalpm `alpm_list_find`: the first data item that compares equal to `needle`. -/
def alpm_list_find {α β : Type} (fn : α → β → Int) : List α → β → Option α
  | [], _ => none
  | d :: rest, needle => if fn d needle = 0 then some d else alpm_list_find fn rest needle

/-- Libalpm `alpm_list_find_str`: `alpm_list_find` with `strcmp`. -/
def alpm_list_find_str (haystack : List String) (needle : String) : Option String :=
  alpm_list_find strcmp haystack needle

/-- The merge loop of `alpm_list_mmerge`; `fuel` bounds the number of cells. -/
def mmerge_loop {α : Type} (fn : α → α → Int) : Nat → List α → List α → List α
  | _, [], right => right
  | _, left, [] => left
  | 0, left, right => left ++ right
  | fuel + 1, l :: ls, r :: rs =>
    if fn l r ≤ 0 then l :: mmerge_loop fn fuel ls (r :: rs)
    else r :: mmerge_loop fn fuel (l :: ls) rs

/-- Libalpm `alpm_list_mmerge`: merge two sorted lists, the left item first on a tie. -/
def alpm_list_mmerge {α : Type} (fn : α → α → Int) (left right : List α) : List α :=
  mmerge_loop fn (left.length + right.length) left right

/-- The recursion of `alpm_list_msort`; `fuel` bounds the recursion depth. -/
def msort_rec {α : Type} (fn : α → α → Int) : Nat → List α → List α
  | 0, list => list
  | fuel + 1, list =>
    let n := list.length
    if n > 1 then
      let half := n / 2
      alpm_list_mmerge fn (msort_rec fn fuel (list.take half))
        (msort_rec fn fuel (list.drop half))
    else list

/-- Libalpm `alpm_list_msort(list, n, fn)`, called with `n` the number of cells of `list`. -/
def alpm_list_msort {α : Type} (fn : α → α → Int) (list : List α) (n : Nat) : List α :=
  msort_rec fn n list

/-- The loop of `alpm_list_diff_sorted` collecting `onlyleft`. -/
def diff_sorted_loop {α : Type} (fn : α → α → Int) : Nat → List α → List α → List α
  | _, [], _ => []
  | _, left, [] => left
  | 0, left, _ => left
  | fuel + 1, l :: ls, r :: rs =>
    if fn l r < 0 then l :: diff_sorted_loop fn fuel ls (r :: rs)
    else if fn l r > 0 then diff_sorted_loop fn fuel (l :: ls) rs
    else diff_sorted_loop fn fuel ls rs

/-- Libalpm `alpm_list_diff_sorted(left, right, fn, &onlyleft, NULL)`. -/
def alpm_list_diff_sorted {α : Type} (fn : α → α → Int) (left right : List α) : List α :=
  diff_sorted_loop fn (left.length + right.length) left right

/-- Libalpm `alpm_list_diff`: sort copies of both lists, then collect what is only in `lhs`. -/
def alpm_list_diff {α : Type} (fn : α → α → Int) (lhs rhs : List α) : List α :=
  let left := alpm_list_msort fn (alpm_list_copy lhs) lhs.length
  let right := alpm_list_msort fn (alpm_list_copy rhs) rhs.length
  alpm_list_diff_sorted fn left right

/-! ## libalpm versions and dependencies -/

/-- Split at the last occurrence of `c` (C `strrchr`): the part before it and
the part after it. -/
def strrchr_split (c : Char) : List Char → Option (List Char × List Char)
  | [] => none
  | x :: xs =>
    match strrchr_split c xs with
    | some (pre, post) => some (x :: pre, post)
    | none => if x = c then some ([], xs) else none

/-- libalpm `parseEVR`: split `[epoch:]version[-release]`. -/
def parseEVR (evr : List Char) : List Char × List Char × Option (List Char) :=
  let digits := evr.takeWhile isdigit
  let s := evr.dropWhile isdigit
  let se := strrchr_split '-' s
  let colon := s.head? = some ':'
  let epoch := if colon then (if digits = [] then ['0'] else digits) else ['0']
  match se with
  | some (pre, release) =>
    (epoch, if colon then pre.tail else digits ++ pre, some release)
  | none => (epoch, if colon then s.tail else evr, none)

/-- The "final showdown" of `rpmvercmp`, after the segment loop. -/
def rpmvercmp_final (one two : List Char) : Int :=
  if one = [] ∧ two = [] then 0
  else if (one = [] ∧ isalpha (two.headD '\x00') = false) ∨ isalpha (one.headD '\x00') = true
  then -1 else 1

/-- The comparison `rpmvercmp` makes of one pair of segments (`isnum` tells
whether they are digit segments): the value it returns at once, or 0 when the
segments are equal and the loop goes on. -/
def rpmvercmp_segment (isnum : Bool) (seg1 seg2 : List Char) : Int :=
  if seg1 = [] then -1
  else if seg2 = [] then (if isnum then 1 else -1)
  else
    let num1 := if isnum then seg1.dropWhile (fun c => c == '0') else seg1
    let num2 := if isnum then seg2.dropWhile (fun c => c == '0') else seg2
    if isnum = true ∧ num1.length > num2.length then 1
    else if isnum = true ∧ num2.length > num1.length then -1
    else if strcmp_chars num1 num2 = 0 then 0
    else if strcmp_chars num1 num2 < 1 then -1 else 1

/-- The character class of a segment: digits for a numeric segment, letters
otherwise. -/
def segment_class (isnum : Bool) : Char → Bool := if isnum then isdigit else isalpha

/-- One round of the `while (*one && *two)` loop of `rpmvercmp`, from the
positions `one` and `two`: the value to return, or the positions for the next
round. -/
def rpmvercmp_round (one two : List Char) : Int ⊕ (List Char × List Char) :=
  if one = [] ∨ two = [] then .inl (rpmvercmp_final one two)
  else
    let one1 := one.dropWhile (fun c => !isalnum c)
    let two1 := two.dropWhile (fun c => !isalnum c)
    if one1 = [] ∨ two1 = [] then .inl (rpmvercmp_final one1 two1)
    else if one.length - one1.length ≠ two.length - two1.length then
      .inl (if one.length - one1.length < two.length - two1.length then -1 else 1)
    else
      let isnum := isdigit (one1.headD '\x00')
      let cls := segment_class isnum
      let ret := rpmvercmp_segment isnum (one1.takeWhile cls) (two1.takeWhile cls)
      if ret ≠ 0 then .inl ret else .inr (one1.dropWhile cls, two1.dropWhile cls)

/-- The segment loop of `rpmvercmp`; every round consumes a character of `one`
(`rpmvercmp_loop_fuel` below), so `fuel` above the length of `one` is never
used up. -/
def rpmvercmp_loop : Nat → List Char → List Char → Int
  | 0, _, _ => 0
  | fuel + 1, one, two =>
    match rpmvercmp_round one two with
    | .inl ret => ret
    | .inr (one1, two1) => rpmvercmp_loop fuel one1 two1

/-- libalpm `rpmvercmp`. -/
def rpmvercmp (a b : List Char) : Int :=
  if strcmp_chars a b = 0 then 0 else rpmvercmp_loop (a.length + 1) a b

/-- libalpm `alpm_pkg_vercmp`; `none` is a NULL version. -/
def alpm_pkg_vercmp (a b : Option String) : Int :=
  match a, b with
  | none, none => 0
  | none, some _ => -1
  | some _, none => 1
  | some a, some b =>
    if strcmp a b = 0 then 0
    else
      let (epoch1, ver1, rel1) := parseEVR a.data
      let (epoch2, ver2, rel2) := parseEVR b.data
      let ret := rpmvercmp epoch1 epoch2
      if ret = 0 then
        let ret := rpmvercmp ver1 ver2
        match rel1, rel2 with
        | some rel1, some rel2 => if ret = 0 then rpmvercmp rel1 rel2 else ret
        | _, _ => ret
      else ret

/-- Libalpm `alpm_depmod_t`. -/
inductive alpm_depmod_t
  | ALPM_DEP_MOD_ANY
  | ALPM_DEP_MOD_EQ
  | ALPM_DEP_MOD_GE
  | ALPM_DEP_MOD_LE
  | ALPM_DEP_MOD_GT
  | ALPM_DEP_MOD_LT
  deriving DecidableEq, Repr

/-- Libalpm `alpm_depend_t` (the description of an optional dependency is left out; the
field `name_hash` is the function `alpm_depend_t.name_hash` of the name). -/
structure alpm_depend_t where
  name : String
  version : Option String
  mod : alpm_depmod_t
  deriving DecidableEq, Repr

/-- libalpm `_alpm_hash_sdbm` on an `unsigned long` of 64 bits. -/
def _alpm_hash_sdbm (str : String) : Nat :=
  str.data.foldl (fun hash c => (c.toNat + hash * 65599) % 2 ^ 64) 0

/-- The `name_hash` field: libalpm fills it with the sdbm hash of `name`
whenever it builds an `alpm_depend_t`. -/
def alpm_depend_t.name_hash (d : alpm_depend_t) : Nat := _alpm_hash_sdbm d.name

/-- Offset of the first occurrence of `needle` in `hay` (C `strstr`). -/
def strstr_chars (needle : List Char) : List Char → Option Nat
  | [] => if needle = [] then some 0 else none
  | h :: hs =>
    if needle <+: (h :: hs) then some 0 else (strstr_chars needle hs).map (· + 1)

/-- Offset of the first `c` among the first `n` characters (C `memchr`). -/
def memchr_chars (c : Char) : List Char → Nat → Option Nat
  | _, 0 => none
  | [], _ + 1 => none
  | x :: xs, n + 1 => if x = c then some 0 else (memchr_chars c xs n).map (· + 1)

/-- libalpm `alpm_dep_from_string`: `name`, then an optional comparison operator
and version, then an optional `": description"`.  It returns NULL only for a
NULL argument or when out of memory, neither of which is modelled. -/
def alpm_dep_from_string (depstring : String) : Option alpm_depend_t :=
  let str := depstring.data
  let deplen := (strstr_chars [':', ' '] str).getD str.length
  let mk := fun (ptr : Nat) (m : alpm_depmod_t) (version : Option Nat) =>
    some { name := String.mk (str.take ptr)
           version := version.map (fun v => String.mk ((str.take deplen).drop v))
           mod := m : alpm_depend_t }
  match memchr_chars '<' str deplen with
  | some ptr =>
    if str.get? (ptr + 1) = some '=' then mk ptr .ALPM_DEP_MOD_LE (some (ptr + 2))
    else mk ptr .ALPM_DEP_MOD_LT (some (ptr + 1))
  | none =>
    match memchr_chars '>' str deplen with
    | some ptr =>
      if str.get? (ptr + 1) = some '=' then mk ptr .ALPM_DEP_MOD_GE (some (ptr + 2))
      else mk ptr .ALPM_DEP_MOD_GT (some (ptr + 1))
    | none =>
      match memchr_chars '=' str deplen with
      | some ptr => mk ptr .ALPM_DEP_MOD_EQ (some (ptr + 1))
      | none => mk deplen .ALPM_DEP_MOD_ANY none

/-! ## libalpm packages -/

/-- Libalpm `alpm_db_t`, reduced to its tree name. -/
structure alpm_db_t where
  treename : String
  deriving DecidableEq, Repr

/-- Libalpm `alpm_pkg_t`, reduced to the fields pacsift reads; an optional string is a
`char *` that may be NULL, `files` is the array of file names of the package's
`alpm_filelist_t` (its `count` is the length). -/
structure alpm_pkg_t where
  name : Option String
  desc : Option String
  packager : Option String
  db : Option alpm_db_t
  groups : List String
  files : List String
  provides : List alpm_depend_t
  depends : List alpm_depend_t
  conflicts : List alpm_depend_t
  replaces : List alpm_depend_t
  deriving DecidableEq, Repr

/-- The address of a package record (`alpm_pkg_t *`). -/
abbrev Ptr := Nat

/-- Libalpm `alpm_handle_t`, reduced to the root directory (`alpm_option_get_root`). -/
structure alpm_handle_t where
  root : String
  deriving DecidableEq, Repr

/-! The accessors of libalpm. -/

def alpm_option_get_root (handle : alpm_handle_t) : String := handle.root
def alpm_pkg_get_name (pkg : alpm_pkg_t) : Option String := pkg.name
def alpm_pkg_get_desc (pkg : alpm_pkg_t) : Option String := pkg.desc
def alpm_pkg_get_packager (pkg : alpm_pkg_t) : Option String := pkg.packager
def alpm_pkg_get_db (pkg : alpm_pkg_t) : Option alpm_db_t := pkg.db
def alpm_pkg_get_groups (pkg : alpm_pkg_t) : List String := pkg.groups
def alpm_pkg_get_files (pkg : alpm_pkg_t) : List String := pkg.files
def alpm_pkg_get_provides (pkg : alpm_pkg_t) : List alpm_depend_t := pkg.provides
def alpm_pkg_get_depends (pkg : alpm_pkg_t) : List alpm_depend_t := pkg.depends
def alpm_pkg_get_conflicts (pkg : alpm_pkg_t) : List alpm_depend_t := pkg.conflicts
def alpm_pkg_get_replaces (pkg : alpm_pkg_t) : List alpm_depend_t := pkg.replaces

/-- Libalpm `alpm_db_get_name`: NULL for a NULL database. -/
def alpm_db_get_name (db : Option alpm_db_t) : Option String := db.map (·.treename)

/-- Libalpm `alpm_filelist_contains`: a binary search with `strcmp` over the file array,
which libalpm keeps sorted; it finds `path` exactly when some entry is `path`. -/
def alpm_filelist_contains (filelist : List String) (path : String) : Option String :=
  alpm_list_find strcmp filelist path

/-! ## pacsift.c -/

/-- The globals of pacsift.c that `filter_pkgs` reads: the four flags and the
term lists of the ten fields. -/
structure Criteria where
  invert : Bool
  re : Bool
  exact : Bool
  or : Bool
  repo : List String
  name : List String
  description : List String
  packager : List String
  group : List String
  ownsfile : List String
  provides : List String
  depends : List String
  conflicts : List String
  replaces : List String
  deriving DecidableEq, Repr

/-- Function `get_dbname` of pacsift.c. -/
def get_dbname (pkg : alpm_pkg_t) : Option String :=
  alpm_db_get_name (alpm_pkg_get_db pkg)

/-- Conversion of a pointer difference to `int`, as `return p2 - p1;` does in a
function that returns `int`: the value modulo 2^32, taken in the range from
-2^31 to 2^31 - 1. -/
def int_of_ptrdiff (z : Int) : Int := (z + 2147483648) % 4294967296 - 2147483648

/-- Function `ptr_cmp` of pacsift.c: the difference `p2 - p1` of two addresses,
narrowed to the `int` it returns. -/
def ptr_cmp (p1 p2 : Ptr) : Int := int_of_ptrdiff ((p2 : Int) - (p1 : Int))

/-- Function `_regcomp` of pacsift.c: `regcomp`, with `cleanup(1)` (here `none`)
when it fails. -/
def _regcomp (rx : Regcomp) (regex : String) : Option (String → Bool) := rx regex

/-- The loop `for(p = *pkgs; p; p = p->next) if(test(p->data)) matches =
alpm_list_add(matches, p->data);` that every filter runs. -/
def collect (test : Ptr → Bool) (pkgs : List Ptr) : List Ptr :=
  pkgs.foldl (fun found p => if test p then alpm_list_add found p else found) []

/-- The loop `for(p = matches; p; p = p->next) *pkgs = alpm_list_remove(*pkgs,
p->data, ptr_cmp, NULL);` that ends every filter. -/
def remove_found (pkgs found : List Ptr) : List Ptr :=
  found.foldl (fun pkgs p => alpm_list_remove ptr_cmp pkgs p) pkgs

/-- The first statement of `filter_filelist`:
`if(strncmp(str, root, rootlen) == 0) { str += rootlen; }`. -/
def skip_root (str root : String) (rootlen : Nat) : String :=
  if strncmp str root rootlen = 0 then String.mk (str.data.drop rootlen) else str

/-- Function `filter_filelist` of pacsift.c: the matches and the new value of `*pkgs`. -/
def filter_filelist (g : Criteria) (rx : Regcomp) (heap : Ptr → alpm_pkg_t)
    (pkgs : List Ptr) (str : String) (root : String) (rootlen : Nat) :
    Option (List Ptr × List Ptr) :=
  let str := skip_root str root rootlen
  if g.re then
    match _regcomp rx str with
    | none => none
    | some preg =>
      let found := collect (fun p => (alpm_pkg_get_files (heap p)).any (fun f => preg f)) pkgs
      some (found, remove_found pkgs found)
  else if g.exact then
    let found := collect
      (fun p => (alpm_filelist_contains (alpm_pkg_get_files (heap p)) str).isSome) pkgs
    some (found, remove_found pkgs found)
  else
    let found := collect
      (fun p => (alpm_pkg_get_files (heap p)).any (fun f => (strcasestr f str).isSome)) pkgs
    some (found, remove_found pkgs found)

/-- Function `filter_str` of pacsift.c: the matches and the new value of `*pkgs`. -/
def filter_str (g : Criteria) (rx : Regcomp) (heap : Ptr → alpm_pkg_t)
    (pkgs : List Ptr) (str : String) (func : alpm_pkg_t → Option String) :
    Option (List Ptr × List Ptr) :=
  if g.re then
    match _regcomp rx str with
    | none => none
    | some preg =>
      let found := collect (fun p =>
        match func (heap p) with
        | some s => preg s
        | none => false) pkgs
      some (found, remove_found pkgs found)
  else if g.exact then
    let found := collect (fun p =>
      match func (heap p) with
      | some s => strcasecmp s str = 0
      | none => false) pkgs
    some (found, remove_found pkgs found)
  else
    let found := collect (fun p =>
      match func (heap p) with
      | some s => (strcasestr s str).isSome
      | none => false) pkgs
    some (found, remove_found pkgs found)

/-- Function `depcmp` of pacsift.c: 0 when the entry `d` matches `needle`, 1 otherwise. -/
def depcmp (g : Criteria) (d needle : alpm_depend_t) : Int :=
  if needle.name_hash ≠ d.name_hash ∨ strcmp needle.name d.name ≠ 0 then 1
  else if g.exact = false ∧ needle.version = none then 0
  else if needle.mod = d.mod ∧ alpm_pkg_vercmp needle.version d.version = 0 then 0
  else 1

/-- Function `filter_deplist` of pacsift.c: the matches and the new value of `*pkgs`. -/
def filter_deplist (g : Criteria) (heap : Ptr → alpm_pkg_t)
    (pkgs : List Ptr) (str : String) (func : alpm_pkg_t → List alpm_depend_t) :
    Option (List Ptr × List Ptr) :=
  match alpm_dep_from_string str with
  | none => none
  | some needle =>
    let found := collect
      (fun p => (alpm_list_find (depcmp g) (func (heap p)) needle).isSome) pkgs
    some (found, remove_found pkgs found)

/-- Function `filter_strlist` of pacsift.c: the matches and the new value of `*pkgs`. -/
def filter_strlist (g : Criteria) (rx : Regcomp) (heap : Ptr → alpm_pkg_t)
    (pkgs : List Ptr) (str : String) (func : alpm_pkg_t → List String) :
    Option (List Ptr × List Ptr) :=
  if g.re then
    match _regcomp rx str with
    | none => none
    | some preg =>
      let found := collect (fun p => (func (heap p)).any (fun h => preg h)) pkgs
      some (found, remove_found pkgs found)
  else if g.exact then
    let found := collect (fun p => (alpm_list_find_str (func (heap p)) str).isSome) pkgs
    some (found, remove_found pkgs found)
  else
    let found := collect
      (fun p => (func (heap p)).any (fun h => (strcasestr h str).isSome)) pkgs
    some (found, remove_found pkgs found)

/-- The `for(lp = list; lp; lp = alpm_list_next(lp))` loop of the `match` macro
on the pair `(matches, haystack)`; `filter` takes the haystack and the term. -/
def match_loop (filter : List Ptr → String → Option (List Ptr × List Ptr)) :
    List String → List Ptr × List Ptr → Option (List Ptr × List Ptr)
  | [], st => some st
  | i :: lp, (found, haystack) =>
    match filter haystack i with
    | none => none
    | some (m, haystack1) => match_loop filter lp (alpm_list_join found m, haystack1)

/-- The `match` macro on the pair `(matches, haystack)`. -/
def match_ (g : Criteria) (list : List String)
    (filter : List Ptr → String → Option (List Ptr × List Ptr))
    (st : List Ptr × List Ptr) : Option (List Ptr × List Ptr) :=
  if list ≠ [] then
    match match_loop filter list st with
    | none => none
    | some (found, haystack) => if g.or = false then some ([], found) else some (found, haystack)
  else some st

/-- Function `filter_pkgs` of pacsift.c, with the globals, the regex engine and
the heap as arguments; the ten `match(...)` lines in source order, then the
`invert` branch. -/
def filter_pkgs (g : Criteria) (rx : Regcomp) (heap : Ptr → alpm_pkg_t)
    (handle : alpm_handle_t) (pkgs : List Ptr) : Option (List Ptr) :=
  let root := alpm_option_get_root handle
  let rootlen := strlen root
  (some (([] : List Ptr), alpm_list_copy pkgs))
  |>.bind (match_ g g.name (fun h i => filter_str g rx heap h i alpm_pkg_get_name))
  |>.bind (match_ g g.description (fun h i => filter_str g rx heap h i alpm_pkg_get_desc))
  |>.bind (match_ g g.packager (fun h i => filter_str g rx heap h i alpm_pkg_get_desc))
  |>.bind (match_ g g.repo (fun h i => filter_str g rx heap h i get_dbname))
  |>.bind (match_ g g.group (fun h i => filter_strlist g rx heap h i alpm_pkg_get_groups))
  |>.bind (match_ g g.ownsfile (fun h i => filter_filelist g rx heap h i root rootlen))
  |>.bind (match_ g g.provides (fun h i => filter_deplist g heap h i alpm_pkg_get_provides))
  |>.bind (match_ g g.depends (fun h i => filter_deplist g heap h i alpm_pkg_get_depends))
  |>.bind (match_ g g.conflicts (fun h i => filter_deplist g heap h i alpm_pkg_get_conflicts))
  |>.bind (match_ g g.replaces (fun h i => filter_deplist g heap h i alpm_pkg_get_replaces))
  |>.map (fun st => if g.invert then alpm_list_diff ptr_cmp pkgs st.2 else st.2)

/-! ## The fields of a search -/

/-- The ten fields, named after their term lists. -/
inductive Field
  | name
  | description
  | packager
  | repo
  | group
  | ownsfile
  | provides
  | depends
  | conflicts
  | replaces
  deriving DecidableEq, Repr

/-- The fields in the order in which `filter_pkgs` applies `match` to them. -/
def Field.all : List Field :=
  [.name, .description, .packager, .repo, .group, .ownsfile,
   .provides, .depends, .conflicts, .replaces]

/-- The term list of a field. -/
def Criteria.terms (g : Criteria) : Field → List String
  | .name => g.name
  | .description => g.description
  | .packager => g.packager
  | .repo => g.repo
  | .group => g.group
  | .ownsfile => g.ownsfile
  | .provides => g.provides
  | .depends => g.depends
  | .conflicts => g.conflicts
  | .replaces => g.replaces

/-- A field is active when its term list is not empty (`if(list)` in `match`). -/
def Criteria.active (g : Criteria) (f : Field) : Bool := !(g.terms f).isEmpty

/-- The same flags, with the term list of every field outside `keep` emptied. -/
def Criteria.keep (g : Criteria) (keep : Field → Bool) : Criteria :=
  { g with
    name := if keep .name then g.name else []
    description := if keep .description then g.description else []
    packager := if keep .packager then g.packager else []
    repo := if keep .repo then g.repo else []
    group := if keep .group then g.group else []
    ownsfile := if keep .ownsfile then g.ownsfile else []
    provides := if keep .provides then g.provides else []
    depends := if keep .depends then g.depends else []
    conflicts := if keep .conflicts then g.conflicts else []
    replaces := if keep .replaces then g.replaces else [] }

/-- The same flags, with field `f` as the only active one. -/
def Criteria.only (g : Criteria) (f : Field) : Criteria := g.keep (fun f1 => f1 = f)

/-- The same criteria with the term list of field `f` replaced by `ts`. -/
def Criteria.with_terms (g : Criteria) (f : Field) (ts : List String) : Criteria :=
  match f with
  | .name => { g with name := ts }
  | .description => { g with description := ts }
  | .packager => { g with packager := ts }
  | .repo => { g with repo := ts }
  | .group => { g with group := ts }
  | .ownsfile => { g with ownsfile := ts }
  | .provides => { g with provides := ts }
  | .depends => { g with depends := ts }
  | .conflicts => { g with conflicts := ts }
  | .replaces => { g with replaces := ts }

/-- The filter call that `filter_pkgs` passes to `match` for each field. -/
def field_filter (g : Criteria) (rx : Regcomp) (heap : Ptr → alpm_pkg_t)
    (handle : alpm_handle_t) : Field → List Ptr → String → Option (List Ptr × List Ptr)
  | .name => fun h i => filter_str g rx heap h i alpm_pkg_get_name
  | .description => fun h i => filter_str g rx heap h i alpm_pkg_get_desc
  | .packager => fun h i => filter_str g rx heap h i alpm_pkg_get_desc
  | .repo => fun h i => filter_str g rx heap h i get_dbname
  | .group => fun h i => filter_strlist g rx heap h i alpm_pkg_get_groups
  | .ownsfile => fun h i =>
    filter_filelist g rx heap h i (alpm_option_get_root handle)
      (strlen (alpm_option_get_root handle))
  | .provides => fun h i => filter_deplist g heap h i alpm_pkg_get_provides
  | .depends => fun h i => filter_deplist g heap h i alpm_pkg_get_depends
  | .conflicts => fun h i => filter_deplist g heap h i alpm_pkg_get_conflicts
  | .replaces => fun h i => filter_deplist g heap h i alpm_pkg_get_replaces

/-- One `match(...)` line of `filter_pkgs`, on the state `(matches, haystack)`. -/
def field_step (g : Criteria) (rx : Regcomp) (heap : Ptr → alpm_pkg_t)
    (handle : alpm_handle_t) (st : Option (List Ptr × List Ptr)) (f : Field) :
    Option (List Ptr × List Ptr) :=
  st.bind (match_ g (g.terms f) (field_filter g rx heap handle f))

/-- The test `filter_str` applies to the value `s` of a record's field. -/
def str_match (re exact : Bool) (rx : Regcomp) (str : String) : Option String → Bool
  | none => false
  | some s =>
    if re then (match rx str with
      | some preg => preg s
      | none => false)
    else if exact then strcasecmp s str = 0
    else (strcasestr s str).isSome

/-- The test `filter_strlist` applies to a record's string list. -/
def strlist_match (re exact : Bool) (rx : Regcomp) (str : String) (l : List String) : Bool :=
  if re then (match rx str with
    | some preg => l.any (fun h => preg h)
    | none => false)
  else if exact then (alpm_list_find_str l str).isSome
  else l.any (fun h => (strcasestr h str).isSome)

/-- The test `filter_filelist` applies to a record's file list. -/
def filelist_match (re exact : Bool) (rx : Regcomp) (str root : String) (rootlen : Nat)
    (files : List String) : Bool :=
  if re then (match rx (skip_root str root rootlen) with
    | some preg => files.any (fun f => preg f)
    | none => false)
  else if exact then (alpm_filelist_contains files (skip_root str root rootlen)).isSome
  else files.any (fun f => (strcasestr f (skip_root str root rootlen)).isSome)

/-- The test `filter_deplist` applies to a record's dependency list. -/
def deplist_match (g : Criteria) (str : String) (deps : List alpm_depend_t) : Bool :=
  match alpm_dep_from_string str with
  | some needle => (alpm_list_find (depcmp g) deps needle).isSome
  | none => false

/-- Does the record at `p` pass the filter of field `f` for the term `t`? -/
def term_test (g : Criteria) (rx : Regcomp) (heap : Ptr → alpm_pkg_t)
    (handle : alpm_handle_t) (f : Field) (t : String) (p : Ptr) : Bool :=
  match f with
  | .name => str_match g.re g.exact rx t (alpm_pkg_get_name (heap p))
  | .description => str_match g.re g.exact rx t (alpm_pkg_get_desc (heap p))
  | .packager => str_match g.re g.exact rx t (alpm_pkg_get_desc (heap p))
  | .repo => str_match g.re g.exact rx t (get_dbname (heap p))
  | .group => strlist_match g.re g.exact rx t (alpm_pkg_get_groups (heap p))
  | .ownsfile =>
    filelist_match g.re g.exact rx t (alpm_option_get_root handle)
      (strlen (alpm_option_get_root handle)) (alpm_pkg_get_files (heap p))
  | .provides => deplist_match g t (alpm_pkg_get_provides (heap p))
  | .depends => deplist_match g t (alpm_pkg_get_depends (heap p))
  | .conflicts => deplist_match g t (alpm_pkg_get_conflicts (heap p))
  | .replaces => deplist_match g t (alpm_pkg_get_replaces (heap p))

/-- Is the term `t` of field `f` one on which the field's filter does not
reach `cleanup(1)`: in regex mode a pattern that compiles, for a dependency
field a string that `alpm_dep_from_string` parses? -/
def term_ok (g : Criteria) (rx : Regcomp) (handle : alpm_handle_t) (f : Field) (t : String) :
    Bool :=
  match f with
  | .name | .description | .packager | .repo | .group => !g.re || (rx t).isSome
  | .ownsfile =>
    !g.re || (rx (skip_root t (alpm_option_get_root handle)
      (strlen (alpm_option_get_root handle)))).isSome
  | .provides | .depends | .conflicts | .replaces => (alpm_dep_from_string t).isSome

/-- All terms of all fields are valid. -/
def terms_valid (g : Criteria) (rx : Regcomp) (handle : alpm_handle_t) : Bool :=
  Field.all.all (fun f => (g.terms f).all (term_ok g rx handle f))

/-- What a filter leaves in `*pkgs`: the haystack after `alpm_list_remove` ran
for every record that passed `test`. -/
def rest_after (h : List Ptr) (test : Ptr → Bool) : List Ptr :=
  remove_found h (h.filter test)

/-- What the loop of `match` gathers from the haystack `h` for the terms `ts`:
for each term in turn, the records of what the earlier filters left of `h`
that pass `test`. -/
def gathered (test : String → Ptr → Bool) : List String → List Ptr → List Ptr
  | [], _ => []
  | t :: ts, h => h.filter (test t) ++ gathered test ts (rest_after h (test t))

/-- What the loop of `match` leaves in the haystack. -/
def drained (test : String → Ptr → Bool) : List String → List Ptr → List Ptr
  | [], h => h
  | t :: ts, h => drained test ts (rest_after h (test t))

/-- The haystack after the `match` line of field `f` when `or` is off. -/
def narrowed (g : Criteria) (rx : Regcomp) (heap : Ptr → alpm_pkg_t)
    (handle : alpm_handle_t) (h : List Ptr) (f : Field) : List Ptr :=
  if g.terms f = [] then h else gathered (term_test g rx heap handle f) (g.terms f) h

/-- The records of `l` lie within 2^31 bytes of each other, so that `ptr_cmp`
returns the true difference of any two of their addresses. -/
def near (l : List Ptr) : Prop :=
  ∀ p ∈ l, ∀ q ∈ l, (q : Int) - (p : Int) < 2147483648

/-- What `gathered` is when every removal takes out the very record that
matched (as it does for records that are `near`): for each term in turn, the
records that pass it and passed none of the terms before it. -/
def gather (test : String → Ptr → Bool) : List String → List Ptr → List Ptr
  | [], _ => []
  | t :: ts, h => h.filter (test t) ++ gather test ts (h.filter (fun p => !test t p))

/-- What `drained` is when every removal takes out the very record that
matched: the records that pass none of the terms. -/
def leftover (test : String → Ptr → Bool) (ts : List String) (h : List Ptr) : List Ptr :=
  h.filter (fun p => ts.all (fun t => !test t p))

/-- What `narrowed` is when every removal takes out the very record that
matched. -/
def narrow (g : Criteria) (rx : Regcomp) (heap : Ptr → alpm_pkg_t)
    (handle : alpm_handle_t) (h : List Ptr) (f : Field) : List Ptr :=
  if g.terms f = [] then h else gather (term_test g rx heap handle f) (g.terms f) h

/-- The field order the specification gives for the pipeline: repo first. -/
def Field.spec_order : List Field :=
  [.repo, .name, .description, .packager, .group, .ownsfile,
   .provides, .depends, .conflicts, .replaces]

/-- The reference pipeline of the specification for a given field order: start
from the whole input, apply the `match` step of each field of `order` in turn,
and on `invert` return the input records that are not in the final haystack. -/
def pipeline (order : List Field) (g : Criteria) (rx : Regcomp) (heap : Ptr → alpm_pkg_t)
    (handle : alpm_handle_t) (pkgs : List Ptr) : Option (List Ptr) :=
  (order.foldl (field_step g rx heap handle) (some ([], alpm_list_copy pkgs))).map
    (fun st => if g.invert then alpm_list_diff ptr_cmp pkgs st.2 else st.2)

/-- The records of `h` laid out cell by cell: for each predicate of `cells` in
turn, the records of `h` that satisfy it, in the order of `h`. -/
def blocks (cells : List (Ptr → Bool)) (h : List Ptr) : List Ptr :=
  cells.flatMap (fun c => h.filter c)

/-- The cells of `gather`: a record falls in the cell of the first term it
passes. -/
def term_cells (test : String → Ptr → Bool) : List String → List (Ptr → Bool)
  | [] => []
  | t :: ts => test t :: (term_cells test ts).map (fun c p => !test t p && c p)

/-- Is the datum that field `f` reads missing from the record: an absent name,
description or database name, or an unpopulated file list? -/
def missing_data (f : Field) (pkg : alpm_pkg_t) : Bool :=
  match f with
  | .name => (alpm_pkg_get_name pkg).isNone
  | .description => (alpm_pkg_get_desc pkg).isNone
  | .repo => (get_dbname pkg).isNone
  | .ownsfile => (alpm_pkg_get_files pkg).isEmpty
  | _ => false

/-- No record falls in two cells of the list. -/
def cells_disjoint (cells : List (Ptr → Bool)) : Prop :=
  cells.Pairwise (fun c c1 => ∀ p, c p = true → c1 p = false)

/-- The cells of one layout applied after another: a cell of the later layout
`cells2` split by the cells of the earlier layout `cells1`. -/
def cell_product (cells2 cells1 : List (Ptr → Bool)) : List (Ptr → Bool) :=
  cells2.flatMap (fun c2 => cells1.map (fun c1 p => c2 p && c1 p))

/-- The cells of the `match` line of field `f` when `or` is off: one cell for
everything when the field is inactive, the cells of its terms otherwise. -/
def field_cells (g : Criteria) (rx : Regcomp) (heap : Ptr → alpm_pkg_t)
    (handle : alpm_handle_t) (f : Field) : List (Ptr → Bool) :=
  if g.terms f = [] then [fun _ => true]
  else term_cells (term_test g rx heap handle f) (g.terms f)

/-- The cells of the `match` lines of the fields `fs`, applied in that order. -/
def fields_cells (g : Criteria) (rx : Regcomp) (heap : Ptr → alpm_pkg_t)
    (handle : alpm_handle_t) : List Field → List (Ptr → Bool)
  | [] => [fun _ => true]
  | f :: fs => cell_product (fields_cells g rx heap handle fs) (field_cells g rx heap handle f)

/-- A record with every field absent or empty. -/
def alpm_pkg_t.blank : alpm_pkg_t :=
  { name := none, desc := none, packager := none, db := none, groups := [], files := [],
    provides := [], depends := [], conflicts := [], replaces := [] }

/-- Criteria with all flags off and no active field. -/
def Criteria.blank : Criteria :=
  { invert := false, re := false, exact := false, or := false, repo := [], name := [],
    description := [], packager := [], group := [], ownsfile := [], provides := [],
    depends := [], conflicts := [], replaces := [] }

/-- A regex engine that accepts no pattern; the sample runs keep `re` off. -/
def no_regex : Regcomp := fun _ => none

/-- A handle with root directory `/`. -/
def root_handle : alpm_handle_t := { root := "/" }

/-- Scenario 1: record 1 is named bash, record 2 zsh. -/
def heap_shells : Ptr → alpm_pkg_t
  | 1 => { alpm_pkg_t.blank with name := some "bash" }
  | 2 => { alpm_pkg_t.blank with name := some "zsh" }
  | _ => alpm_pkg_t.blank

/-- Scenario 2: record 1 is in groups base and devel, record 2 in base. -/
def heap_groups : Ptr → alpm_pkg_t
  | 1 => { alpm_pkg_t.blank with name := some "A", groups := ["base", "devel"] }
  | 2 => { alpm_pkg_t.blank with name := some "B", groups := ["base"] }
  | _ => alpm_pkg_t.blank

/-- Scenario 3, with a third record: record 1 depends on glibc>=2.30, record 2
on glibc>=2.28, record 3 on glibc>=2.30-1. -/
def heap_glibc : Ptr → alpm_pkg_t
  | 1 => { alpm_pkg_t.blank with
           depends := [{ name := "glibc", version := some "2.30", mod := .ALPM_DEP_MOD_GE }] }
  | 2 => { alpm_pkg_t.blank with
           depends := [{ name := "glibc", version := some "2.28", mod := .ALPM_DEP_MOD_GE }] }
  | 3 => { alpm_pkg_t.blank with
           depends := [{ name := "glibc", version := some "2.30-1", mod := .ALPM_DEP_MOD_GE }] }
  | _ => alpm_pkg_t.blank

/-- Scenario 4: record 1 is foo in core, record 2 foobar in extra, record 3 bar
in core. -/
def heap_repos : Ptr → alpm_pkg_t
  | 1 => { alpm_pkg_t.blank with name := some "foo", db := some { treename := "core" } }
  | 2 => { alpm_pkg_t.blank with name := some "foobar", db := some { treename := "extra" } }
  | 3 => { alpm_pkg_t.blank with name := some "bar", db := some { treename := "core" } }
  | _ => alpm_pkg_t.blank

/-- One record whose packager is Alice and whose description is "GNU shell". -/
def heap_packager : Ptr → alpm_pkg_t
  | 1 => { alpm_pkg_t.blank with
           name := some "bash", desc := some "GNU shell", packager := some "Alice" }
  | _ => alpm_pkg_t.blank

/-- One record in the group "Base". -/
def heap_capital : Ptr → alpm_pkg_t
  | 1 => { alpm_pkg_t.blank with name := some "filesystem", groups := ["Base"] }
  | _ => alpm_pkg_t.blank

/-- The dependency test as the specification words it: same name, and either an
unversioned term outside Exact mode, or the same operator and the same version
string. -/
def dep_matches_by_string (exact : Bool) (d term : alpm_depend_t) : Bool :=
  d.name = term.name ∧
    ((term.version = none ∧ exact = false) ∨ (d.mod = term.mod ∧ d.version = term.version))

/-- The lowercase form of a string, as a list of characters. -/
def lowercase (s : String) : List Char := s.data.map tolower

/-- A stand-in for the regex engine on plain patterns: the pattern "(" does not
compile, and a pattern of plain characters matches wherever it occurs, ignoring
letter case (the sample runs use no other patterns). -/
def plain_regex : Regcomp := fun pattern =>
  if pattern = "(" then none else some (fun s => (strcasestr s pattern).isSome)

/-- Record 1 owns usr/bin/foo, record 2 owns usr/bin/bar, and the file list of
record 3 is not populated. -/
def heap_files : Ptr → alpm_pkg_t
  | 1 => { alpm_pkg_t.blank with name := some "foo", files := ["usr/bin/foo", "usr/share/foo"] }
  | 2 => { alpm_pkg_t.blank with name := some "bar", files := ["usr/bin/bar"] }
  | 3 => { alpm_pkg_t.blank with desc := some "no name, no files" }
  | _ => alpm_pkg_t.blank

/-- Record 1 depends on glibc without a version, record 2 on glibc>=2.30. -/
def heap_unversioned : Ptr → alpm_pkg_t
  | 1 => { alpm_pkg_t.blank with
           depends := [{ name := "glibc", version := none, mod := .ALPM_DEP_MOD_ANY }] }
  | 2 => { alpm_pkg_t.blank with
           depends := [{ name := "glibc", version := some "2.30", mod := .ALPM_DEP_MOD_GE }] }
  | _ => alpm_pkg_t.blank

/-- Two records whose addresses lie 2^32 bytes apart: the record at 4096 is
named zz and is in repo qq, the record at 4294971392 is named ab and is in
repo pp. -/
def heap_far : Ptr → alpm_pkg_t
  | 4096 => { alpm_pkg_t.blank with name := some "zz", db := some { treename := "qq" } }
  | 4294971392 => { alpm_pkg_t.blank with name := some "ab", db := some { treename := "pp" } }
  | _ => alpm_pkg_t.blank

/-- Three records 2^32 bytes apart: a at 4096, bk at 4294971392 and cck at
8589938688. -/
def heap_far3 : Ptr → alpm_pkg_t
  | 4096 => { alpm_pkg_t.blank with name := some "a" }
  | 4294971392 => { alpm_pkg_t.blank with name := some "bk" }
  | 8589938688 => { alpm_pkg_t.blank with name := some "cck" }
  | _ => alpm_pkg_t.blank

/-- Two records 2^32 bytes apart: the record at 4096 has no name, the record at
4294971392 is named bash. -/
def heap_far_missing : Ptr → alpm_pkg_t
  | 4294971392 => { alpm_pkg_t.blank with name := some "bash" }
  | _ => alpm_pkg_t.blank

/-- One record with a description and no packager. -/
def heap_no_packager : Ptr → alpm_pkg_t
  | 1 => { alpm_pkg_t.blank with name := some "bash", desc := some "GNU shell" }
  | _ => alpm_pkg_t.blank

/-! ## Lemmas: lists, sorting and the difference of lists -/

open List

theorem ptr_cmp_self (a : Nat) : ptr_cmp a a = 0 := by
  unfold ptr_cmp int_of_ptrdiff
  omega

theorem ptr_cmp_exact (a b : Nat) (h1 : (b : Int) - (a : Int) < 2147483648)
    (h2 : (a : Int) - (b : Int) < 2147483648) : ptr_cmp a b = (b : Int) - (a : Int) := by
  unfold ptr_cmp int_of_ptrdiff
  omega

theorem near_exact {l : List Nat} (h : near l) {p q : Nat} (hp : p ∈ l) (hq : q ∈ l) :
    ptr_cmp p q = (q : Int) - (p : Int) :=
  ptr_cmp_exact p q (h p hp q hq) (h q hq p hp)

theorem near_of_subset {l1 l : List Nat} (hs : ∀ x ∈ l1, x ∈ l) (h : near l) : near l1 :=
  fun p hp q hq => h p (hs p hp) q (hs q hq)

theorem near_eq_of_cmp_zero {l : List Nat} (h : near l) {p q : Nat} (hp : p ∈ l) (hq : q ∈ l)
    (h0 : ptr_cmp p q = 0) : p = q := by
  rw [near_exact h hp hq] at h0
  omega

theorem alpm_list_remove_sublist {α β : Type} (fn : α → β → Int) (needle : β) :
    ∀ l : List α, (alpm_list_remove fn l needle).Sublist l := by
  intro l
  induction l with
  | nil => exact List.Sublist.refl _
  | cons d rest ih =>
    by_cases h : fn d needle = 0
    · simp only [alpm_list_remove, if_pos h]
      exact List.sublist_cons_self d rest
    · simp only [alpm_list_remove, if_neg h]
      exact ih.cons₂ d

theorem alpm_list_remove_eq_erase (l : List Nat) (p : Nat)
    (h : ∀ d ∈ l, ptr_cmp d p = 0 → d = p) :
    alpm_list_remove ptr_cmp l p = l.erase p := by
  induction l with
  | nil => rfl
  | cons d rest ih =>
    have hrest : ∀ d1 ∈ rest, ptr_cmp d1 p = 0 → d1 = p :=
      fun d1 h1 => h d1 (List.mem_cons_of_mem _ h1)
    by_cases hd : d = p
    · subst hd
      simp [alpm_list_remove, ptr_cmp_self]
    · have h1 : ¬ (ptr_cmp d p = 0) := fun h0 => hd (h d (List.mem_cons_self _ _) h0)
      simp [alpm_list_remove, h1, ih hrest, List.erase_cons, hd]

theorem collect_eq_filter (test : Ptr → Bool) (pkgs : List Ptr) :
    collect test pkgs = pkgs.filter test := by
  have key : ∀ (l acc : List Ptr),
      l.foldl (fun found p => if test p then alpm_list_add found p else found) acc
        = acc ++ l.filter test := by
    intro l
    induction l with
    | nil => intro acc; simp
    | cons a t ih =>
      intro acc
      by_cases h : test a = true
      · rw [List.foldl_cons, if_pos h, ih]
        simp [alpm_list_add, h]
      · rw [List.foldl_cons, if_neg h, ih]
        simp [h]
  simpa [collect] using key pkgs []

theorem remove_found_cons (pkgs : List Ptr) (q : Ptr) (found : List Ptr) :
    remove_found pkgs (q :: found) = remove_found (alpm_list_remove ptr_cmp pkgs q) found := rfl

theorem remove_found_sublist :
    ∀ (found pkgs : List Ptr), (remove_found pkgs found).Sublist pkgs := by
  intro found
  induction found with
  | nil => intro pkgs; exact List.Sublist.refl _
  | cons q found ih =>
    intro pkgs
    rw [remove_found_cons]
    exact (ih _).trans (alpm_list_remove_sublist ptr_cmp q pkgs)

theorem remove_found_eq_diff :
    ∀ (found pkgs : List Nat), (∀ d ∈ pkgs, ∀ q ∈ found, ptr_cmp d q = 0 → d = q) →
      remove_found pkgs found = pkgs.diff found := by
  intro found
  induction found with
  | nil => intro pkgs _; rfl
  | cons q found ih =>
    intro pkgs h
    rw [remove_found_cons,
      alpm_list_remove_eq_erase pkgs q (fun d hd => h d hd q (List.mem_cons_self _ _)),
      List.diff_cons]
    exact ih _ (fun d hd q1 hq1 =>
      h d (List.mem_of_mem_erase hd) q1 (List.mem_cons_of_mem _ hq1))

theorem diff_filter_self (test : Ptr → Bool) (pkgs : List Ptr) :
    pkgs.diff (pkgs.filter test) = pkgs.filter (fun p => !test p) := by
  induction pkgs with
  | nil => simp
  | cons a t ih =>
    by_cases h : test a = true
    · simp [h, ih]
    · have hm : a ∉ t.filter test := by
        intro hmem
        exact h (List.mem_filter.mp hmem).2
      simp [h, List.cons_diff_of_not_mem hm, ih]

theorem rest_after_sublist (test : Ptr → Bool) (pkgs : List Ptr) :
    (rest_after pkgs test).Sublist pkgs :=
  remove_found_sublist _ _

theorem rest_after_near (test : Ptr → Bool) (pkgs : List Nat) (hn : near pkgs) :
    rest_after pkgs test = pkgs.filter (fun p => !test p) := by
  unfold rest_after
  rw [remove_found_eq_diff _ _ (fun d hd q hq h0 =>
    near_eq_of_cmp_zero hn hd (List.mem_filter.mp hq).1 h0), diff_filter_self]

theorem mmerge_loop_perm {α : Type} (fn : α → α → Int) :
    ∀ (fuel : Nat) (l r : List α), mmerge_loop fn fuel l r ~ l ++ r := by
  intro fuel
  induction fuel with
  | zero =>
    intro l r
    cases l <;> cases r <;> simp [mmerge_loop]
  | succ n ih =>
    intro l r
    cases l with
    | nil => simp [mmerge_loop]
    | cons a ls =>
      cases r with
      | nil => simp [mmerge_loop]
      | cons b rs =>
        by_cases h : fn a b ≤ 0
        · simp only [mmerge_loop, if_pos h]
          exact (ih ls (b :: rs)).cons a
        · simp only [mmerge_loop, if_neg h]
          have h1 : b :: mmerge_loop fn n (a :: ls) rs ~ b :: (a :: ls ++ rs) :=
            (ih (a :: ls) rs).cons b
          exact h1.trans (@perm_middle _ b (a :: ls) rs).symm

theorem msort_rec_perm {α : Type} (fn : α → α → Int) :
    ∀ (fuel : Nat) (l : List α), msort_rec fn fuel l ~ l := by
  intro fuel
  induction fuel with
  | zero => intro l; simp [msort_rec]
  | succ n ih =>
    intro l
    by_cases h : l.length > 1
    · simp only [msort_rec, if_pos h, alpm_list_mmerge]
      refine (mmerge_loop_perm fn _ _ _).trans ?_
      have h2 := (ih (l.take (l.length / 2))).append (ih (l.drop (l.length / 2)))
      rwa [List.take_append_drop] at h2
    · simp [msort_rec, h]

theorem mmerge_loop_sorted (S : List Nat) (hS : near S) :
    ∀ (fuel : Nat) (l r : List Nat), l.length + r.length ≤ fuel →
      (∀ x ∈ l, x ∈ S) → (∀ x ∈ r, x ∈ S) →
      l.Pairwise (fun a b => b ≤ a) → r.Pairwise (fun a b => b ≤ a) →
      (mmerge_loop ptr_cmp fuel l r).Pairwise (fun a b => b ≤ a) := by
  intro fuel
  induction fuel with
  | zero =>
    intro l r hlen _ _ hl hr
    cases l <;> cases r <;> simp_all [mmerge_loop]
  | succ n ih =>
    intro l r hlen hlS hrS hl hr
    cases l with
    | nil => simpa [mmerge_loop] using hr
    | cons a ls =>
      cases r with
      | nil => simpa [mmerge_loop] using hl
      | cons b rs =>
        have hl' := List.pairwise_cons.mp hl
        have hr' := List.pairwise_cons.mp hr
        have hc := near_exact hS (hlS a (List.mem_cons_self _ _)) (hrS b (List.mem_cons_self _ _))
        have hlsS : ∀ x ∈ ls, x ∈ S := fun x hx => hlS x (List.mem_cons_of_mem _ hx)
        have hrsS : ∀ x ∈ rs, x ∈ S := fun x hx => hrS x (List.mem_cons_of_mem _ hx)
        by_cases h : ptr_cmp a b ≤ 0
        · simp only [mmerge_loop, if_pos h]
          rw [hc] at h
          have hba : b ≤ a := by omega
          refine List.pairwise_cons.mpr
            ⟨?_, ih ls (b :: rs) (by simp at hlen ⊢; omega) hlsS hrS hl'.2 hr⟩
          intro x hx
          have hx' := (mmerge_loop_perm ptr_cmp n ls (b :: rs)).subset hx
          rcases List.mem_append.mp hx' with hx1 | hx1
          · exact hl'.1 x hx1
          · rcases List.mem_cons.mp hx1 with rfl | hx2
            · exact hba
            · exact le_trans (hr'.1 x hx2) hba
        · simp only [mmerge_loop, if_neg h]
          rw [hc] at h
          have hab : a ≤ b := by omega
          refine List.pairwise_cons.mpr
            ⟨?_, ih (a :: ls) rs (by simp at hlen ⊢; omega) hlS hrsS hl hr'.2⟩
          intro x hx
          have hx' := (mmerge_loop_perm ptr_cmp n (a :: ls) rs).subset hx
          rcases List.mem_append.mp hx' with hx1 | hx1
          · rcases List.mem_cons.mp hx1 with rfl | hx2
            · exact hab
            · exact Nat.le_trans (hl'.1 x hx2) hab
          · exact hr'.1 x hx1

theorem msort_rec_sorted (S : List Nat) (hS : near S) :
    ∀ (fuel : Nat) (l : List Nat), l.length ≤ fuel → (∀ x ∈ l, x ∈ S) →
      (msort_rec ptr_cmp fuel l).Pairwise (fun a b => b ≤ a) := by
  intro fuel
  induction fuel with
  | zero =>
    intro l hlen _
    have : l = [] := List.length_eq_zero.mp (by omega)
    subst this
    simp [msort_rec]
  | succ n ih =>
    intro l hlen hlS
    by_cases h : l.length > 1
    · simp only [msort_rec, if_pos h, alpm_list_mmerge]
      have htake : ∀ x ∈ l.take (l.length / 2), x ∈ S :=
        fun x hx => hlS x (List.mem_of_mem_take hx)
      have hdrop : ∀ x ∈ l.drop (l.length / 2), x ∈ S :=
        fun x hx => hlS x (List.mem_of_mem_drop hx)
      apply mmerge_loop_sorted S hS _ _ _ (le_refl _)
      · intro x hx
        exact htake x ((msort_rec_perm ptr_cmp n _).subset hx)
      · intro x hx
        exact hdrop x ((msort_rec_perm ptr_cmp n _).subset hx)
      · apply ih _ _ htake; simp; omega
      · apply ih _ _ hdrop; simp; omega
    · simp only [msort_rec, if_neg h]
      match l, h with
      | [], _ => simp
      | [a], _ => simp
      | _ :: _ :: _, h => simp at h

theorem diff_sorted_loop_eq (S : List Nat) (hS : near S) :
    ∀ (fuel : Nat) (l r : List Nat), l.length + r.length ≤ fuel →
      (∀ x ∈ l, x ∈ S) → (∀ x ∈ r, x ∈ S) →
      l.Pairwise (fun a b => b ≤ a) → r.Pairwise (fun a b => b ≤ a) →
      diff_sorted_loop ptr_cmp fuel l r = l.diff r := by
  intro fuel
  induction fuel with
  | zero =>
    intro l r hlen _ _ hl hr
    cases l <;> cases r <;> simp_all [diff_sorted_loop]
  | succ n ih =>
    intro l r hlen hlS hrS hl hr
    cases l with
    | nil => simp [diff_sorted_loop]
    | cons a ls =>
      cases r with
      | nil => simp [diff_sorted_loop]
      | cons b rs =>
        have hl' := List.pairwise_cons.mp hl
        have hr' := List.pairwise_cons.mp hr
        have hc := near_exact hS (hlS a (List.mem_cons_self _ _)) (hrS b (List.mem_cons_self _ _))
        have hlsS : ∀ x ∈ ls, x ∈ S := fun x hx => hlS x (List.mem_cons_of_mem _ hx)
        have hrsS : ∀ x ∈ rs, x ∈ S := fun x hx => hrS x (List.mem_cons_of_mem _ hx)
        by_cases h1 : ptr_cmp a b < 0
        · simp only [diff_sorted_loop, if_pos h1]
          rw [hc] at h1
          have hnot : a ∉ b :: rs := by
            intro hm
            rcases List.mem_cons.mp hm with rfl | hm2
            · omega
            · have := hr'.1 a hm2
              omega
          rw [List.cons_diff_of_not_mem hnot,
            ih ls (b :: rs) (by simp at hlen ⊢; omega) hlsS hrS hl'.2 hr]
        · by_cases h2 : ptr_cmp a b > 0
          · simp only [diff_sorted_loop, if_neg h1, if_pos h2]
            rw [hc] at h2
            have hnot : b ∉ a :: ls := by
              intro hm
              rcases List.mem_cons.mp hm with rfl | hm2
              · omega
              · have := hl'.1 b hm2
                omega
            rw [List.diff_cons, List.erase_of_not_mem hnot,
              ih (a :: ls) rs (by simp at hlen ⊢; omega) hlS hrsS hl hr'.2]
          · simp only [diff_sorted_loop, if_neg h1, if_neg h2]
            have hab : a = b := by
              rw [hc] at h1 h2
              omega
            subst hab
            rw [List.diff_cons, List.erase_cons_head,
              ih ls rs (by simp at hlen ⊢; omega) hlsS hrsS hl'.2 hr'.2]

theorem alpm_list_diff_perm (S : List Nat) (hS : near S) (l r : List Nat)
    (hl : ∀ x ∈ l, x ∈ S) (hr : ∀ x ∈ r, x ∈ S) :
    alpm_list_diff ptr_cmp l r ~ l.diff r := by
  unfold alpm_list_diff alpm_list_diff_sorted alpm_list_msort alpm_list_copy
  simp only []
  have hl1 : ∀ x ∈ msort_rec ptr_cmp l.length l, x ∈ S :=
    fun x hx => hl x ((msort_rec_perm ptr_cmp _ l).subset hx)
  have hr1 : ∀ x ∈ msort_rec ptr_cmp r.length r, x ∈ S :=
    fun x hx => hr x ((msort_rec_perm ptr_cmp _ r).subset hx)
  rw [diff_sorted_loop_eq S hS _ _ _ (le_refl _) hl1 hr1
    (msort_rec_sorted S hS _ _ (le_refl _) hl) (msort_rec_sorted S hS _ _ (le_refl _) hr)]
  exact (msort_rec_perm ptr_cmp _ l).diff (msort_rec_perm ptr_cmp _ r)

theorem diff_sorted_loop_self :
    ∀ (fuel : Nat) (s : List Nat), s.length ≤ fuel → diff_sorted_loop ptr_cmp fuel s s = [] := by
  intro fuel
  induction fuel with
  | zero =>
    intro s hlen
    have : s = [] := List.length_eq_zero.mp (by omega)
    subst this
    rfl
  | succ n ih =>
    intro s hlen
    cases s with
    | nil => rfl
    | cons a t =>
      simp only [diff_sorted_loop, ptr_cmp_self, lt_self_iff_false, gt_iff_lt, if_false]
      exact ih t (by simp at hlen; omega)

theorem alpm_list_diff_self (l : List Nat) : alpm_list_diff ptr_cmp l l = [] := by
  unfold alpm_list_diff alpm_list_diff_sorted alpm_list_msort alpm_list_copy
  simp only []
  apply diff_sorted_loop_self
  omega

/-! ## Lemmas: the filters and the pipeline -/

theorem filter_pkgs_eq_fold (g : Criteria) (rx : Regcomp) (heap : Ptr → alpm_pkg_t)
    (handle : alpm_handle_t) (pkgs : List Ptr) :
    filter_pkgs g rx heap handle pkgs
      = (Field.all.foldl (field_step g rx heap handle) (some ([], pkgs))).map
          (fun st => if g.invert then alpm_list_diff ptr_cmp pkgs st.2 else st.2) := rfl

theorem found_and_rest (c T : Ptr → Bool) (pkgs : List Ptr) (h : ∀ p, c p = T p) :
    (some (collect c pkgs, remove_found pkgs (collect c pkgs)) : Option (List Ptr × List Ptr))
      = some (pkgs.filter T, rest_after pkgs T) := by
  have hc : c = T := funext h
  subst hc
  rw [collect_eq_filter]
  rfl

theorem filter_str_eq (g : Criteria) (rx : Regcomp) (heap : Ptr → alpm_pkg_t)
    (pkgs : List Ptr) (str : String) (func : alpm_pkg_t → Option String) :
    filter_str g rx heap pkgs str func
      = if (!g.re || (rx str).isSome) = true then
          some (pkgs.filter (fun p => str_match g.re g.exact rx str (func (heap p))),
                rest_after pkgs (fun p => str_match g.re g.exact rx str (func (heap p))))
        else none := by
  unfold filter_str _regcomp
  cases hre : g.re <;> cases hex : g.exact <;> cases hrx : rx str <;>
    simp only [Bool.not_true, Bool.not_false, Bool.false_or, Bool.true_or, Option.isSome_none,
      Option.isSome_some, if_true, if_false, Bool.false_eq_true] <;>
    apply found_and_rest <;> intro p <;> cases func (heap p) <;> simp [str_match, hrx]

theorem filter_strlist_eq (g : Criteria) (rx : Regcomp) (heap : Ptr → alpm_pkg_t)
    (pkgs : List Ptr) (str : String) (func : alpm_pkg_t → List String) :
    filter_strlist g rx heap pkgs str func
      = if (!g.re || (rx str).isSome) = true then
          some (pkgs.filter (fun p => strlist_match g.re g.exact rx str (func (heap p))),
                rest_after pkgs (fun p => strlist_match g.re g.exact rx str (func (heap p))))
        else none := by
  unfold filter_strlist _regcomp
  cases hre : g.re <;> cases hex : g.exact <;> cases hrx : rx str <;>
    simp only [Bool.not_true, Bool.not_false, Bool.false_or, Bool.true_or, Option.isSome_none,
      Option.isSome_some, if_true, if_false, Bool.false_eq_true] <;>
    apply found_and_rest <;> intro p <;> simp [strlist_match, hrx]

theorem filter_filelist_eq (g : Criteria) (rx : Regcomp) (heap : Ptr → alpm_pkg_t)
    (pkgs : List Ptr) (str root : String) (rootlen : Nat) :
    filter_filelist g rx heap pkgs str root rootlen
      = if (!g.re || (rx (skip_root str root rootlen)).isSome) = true then
          some (pkgs.filter (fun p => filelist_match g.re g.exact rx str root rootlen
                  (alpm_pkg_get_files (heap p))),
                rest_after pkgs (fun p => filelist_match g.re g.exact rx str root rootlen
                  (alpm_pkg_get_files (heap p))))
        else none := by
  unfold filter_filelist _regcomp
  cases hre : g.re <;> cases hex : g.exact <;> cases hrx : rx (skip_root str root rootlen) <;>
    simp only [hrx, Bool.not_true, Bool.not_false, Bool.false_or, Bool.true_or, Option.isSome_none,
      Option.isSome_some, if_true, if_false, Bool.false_eq_true] <;>
    apply found_and_rest <;> intro p <;> simp [filelist_match, hrx]

theorem filter_deplist_eq (g : Criteria) (heap : Ptr → alpm_pkg_t)
    (pkgs : List Ptr) (str : String) (func : alpm_pkg_t → List alpm_depend_t) :
    filter_deplist g heap pkgs str func
      = if (alpm_dep_from_string str).isSome = true then
          some (pkgs.filter (fun p => deplist_match g str (func (heap p))),
                rest_after pkgs (fun p => deplist_match g str (func (heap p))))
        else none := by
  unfold filter_deplist
  cases hd : alpm_dep_from_string str <;>
    simp only [Option.isSome_none, Option.isSome_some, if_true, if_false, Bool.false_eq_true]
  apply found_and_rest
  intro p
  simp [deplist_match, hd]

theorem field_filter_eq (g : Criteria) (rx : Regcomp) (heap : Ptr → alpm_pkg_t)
    (handle : alpm_handle_t) (f : Field) (h : List Ptr) (t : String) :
    field_filter g rx heap handle f h t
      = if term_ok g rx handle f t = true then
          some (h.filter (term_test g rx heap handle f t),
                rest_after h (term_test g rx heap handle f t))
        else none := by
  cases f <;>
    simp only [field_filter, term_ok, filter_str_eq, filter_strlist_eq,
      filter_filelist_eq, filter_deplist_eq] <;> rfl

theorem match_loop_eq (filter : List Ptr → String → Option (List Ptr × List Ptr))
    (ok : String → Bool) (test : String → Ptr → Bool)
    (hf : ∀ h t, filter h t
      = if ok t = true then some (h.filter (test t), rest_after h (test t)) else none) :
    ∀ (ts : List String) (m h : List Ptr),
      match_loop filter ts (m, h)
        = if ts.all ok = true then some (m ++ gathered test ts h, drained test ts h)
          else none := by
  intro ts
  induction ts with
  | nil => intro m h; simp [match_loop, gathered, drained]
  | cons t ts ih =>
    intro m h
    by_cases hok : ok t = true
    · simp only [match_loop, hf, hok, if_true, alpm_list_join, ih, List.all_cons, Bool.true_and]
      by_cases hall : ts.all ok = true
      · simp only [hall, if_true, gathered, drained, List.append_assoc]
      · simp [hall]
    · simp [match_loop, hf, hok]

theorem drained_sublist (test : String → Ptr → Bool) :
    ∀ (ts : List String) (h : List Ptr), (drained test ts h).Sublist h := by
  intro ts
  induction ts with
  | nil => intro h; exact List.Sublist.refl _
  | cons t ts ih =>
    intro h
    exact (ih _).trans (rest_after_sublist _ _)

theorem gathered_eq_gather (test : String → Ptr → Bool) :
    ∀ (ts : List String) (h : List Nat), near h →
      gathered test ts h = gather test ts h ∧ drained test ts h = leftover test ts h := by
  intro ts
  induction ts with
  | nil => intro h _; simp [gathered, gather, drained, leftover]
  | cons t ts ih =>
    intro h hn
    have hr := rest_after_near (test t) h hn
    have hn1 : near (h.filter (fun p => !test t p)) :=
      near_of_subset (fun x hx => (List.mem_filter.mp hx).1) hn
    have h1 := ih (h.filter (fun p => !test t p)) hn1
    have h2 : leftover test (t :: ts) h = leftover test ts (h.filter (fun p => !test t p)) := by
      simp only [leftover, List.filter_filter, List.all_cons]
      apply List.filter_congr
      intro p _
      simp [Bool.and_comm]
    constructor
    · simp only [gathered, gather, hr, h1.1]
    · simp only [drained, hr, h1.2, h2]

theorem mem_gather (test : String → Ptr → Bool) :
    ∀ (ts : List String) (h : List Ptr) (p : Ptr),
      p ∈ gather test ts h ↔ p ∈ h ∧ ∃ t ∈ ts, test t p = true := by
  intro ts
  induction ts with
  | nil => intro h p; simp [gather]
  | cons t ts ih =>
    intro h p
    simp only [gather, List.mem_append, List.mem_filter, ih, List.mem_cons, exists_eq_or_imp]
    by_cases ht : test t p = true
    · simp [ht]
    · simp [ht]

theorem gather_perm (test : String → Ptr → Bool) :
    ∀ (ts : List String) (h : List Ptr), gather test ts h ++ leftover test ts h ~ h := by
  intro ts
  induction ts with
  | nil => intro h; simp [gather, leftover]
  | cons t ts ih =>
    intro h
    have h1 := ih (h.filter (fun p => !test t p))
    have h2 : leftover test (t :: ts) h = leftover test ts (h.filter (fun p => !test t p)) := by
      simp only [leftover, List.filter_filter, List.all_cons]
      apply List.filter_congr
      intro p _
      simp [Bool.and_comm]
    rw [h2]
    simp only [gather, List.append_assoc]
    exact (h1.append_left _).trans (List.filter_append_perm (test t) h)

theorem gather_subperm (test : String → Ptr → Bool) (ts : List String) (h : List Ptr) :
    (gather test ts h).Subperm h :=
  (List.sublist_append_left _ _).subperm.trans (gather_perm test ts h).subperm

theorem leftover_sublist (test : String → Ptr → Bool) (ts : List String) (h : List Ptr) :
    (leftover test ts h).Sublist h := List.filter_sublist _

theorem mem_of_mem_gathered (test : String → Ptr → Bool) :
    ∀ (ts : List String) (h : List Ptr) (p : Ptr), p ∈ gathered test ts h → p ∈ h := by
  intro ts
  induction ts with
  | nil => intro h p hp; simp [gathered] at hp
  | cons t ts ih =>
    intro h p hp
    simp only [gathered, List.mem_append] at hp
    rcases hp with hp | hp
    · exact (List.mem_filter.mp hp).1
    · exact (rest_after_sublist _ _).subset (ih _ p hp)

theorem match_field_eq (g : Criteria) (rx : Regcomp) (heap : Ptr → alpm_pkg_t)
    (handle : alpm_handle_t) (f : Field) (m h : List Ptr) :
    match_ g (g.terms f) (field_filter g rx heap handle f) (m, h)
      = if g.terms f = [] then some (m, h)
        else if (g.terms f).all (term_ok g rx handle f) = true then
          (if g.or = false then
            some ([], m ++ gathered (term_test g rx heap handle f) (g.terms f) h)
          else some (m ++ gathered (term_test g rx heap handle f) (g.terms f) h,
                     drained (term_test g rx heap handle f) (g.terms f) h))
        else none := by
  unfold match_
  rw [match_loop_eq _ _ _ (field_filter_eq g rx heap handle f)]
  by_cases h1 : g.terms f = []
  · simp [h1]
  · by_cases h2 : (g.terms f).all (term_ok g rx handle f) = true
    · simp only [h1, h2, if_true, if_false, ne_eq, not_false_eq_true]
    · simp [h1, h2]

theorem fold_none (g : Criteria) (rx : Regcomp) (heap : Ptr → alpm_pkg_t)
    (handle : alpm_handle_t) (fs : List Field) :
    fs.foldl (field_step g rx heap handle) none = none := by
  induction fs with
  | nil => rfl
  | cons f fs ih => simpa [field_step] using ih

theorem fold_and (g : Criteria) (rx : Regcomp) (heap : Ptr → alpm_pkg_t)
    (handle : alpm_handle_t) (hor : g.or = false) :
    ∀ (fs : List Field) (h : List Ptr),
      (∀ f ∈ fs, (g.terms f).all (term_ok g rx handle f) = true) →
      fs.foldl (field_step g rx heap handle) (some ([], h))
        = some ([], fs.foldl (narrowed g rx heap handle) h) := by
  intro fs
  induction fs with
  | nil => intro h _; rfl
  | cons f fs ih =>
    intro h hv
    have hf := hv f (List.mem_cons_self _ _)
    have hrest : ∀ f1 ∈ fs, (g.terms f1).all (term_ok g rx handle f1) = true :=
      fun f1 h1 => hv f1 (List.mem_cons_of_mem _ h1)
    rw [List.foldl_cons, List.foldl_cons]
    have hstep : field_step g rx heap handle (some ([], h)) f
        = some ([], narrowed g rx heap handle h f) := by
      simp only [field_step, Option.some_bind, match_field_eq, hf, hor, if_true, narrowed,
        List.nil_append]
      by_cases h1 : g.terms f = []
      · simp [h1]
      · simp [h1]
    rw [hstep]
    exact ih _ hrest

theorem mem_of_mem_narrowed (g : Criteria) (rx : Regcomp) (heap : Ptr → alpm_pkg_t)
    (handle : alpm_handle_t) (h : List Ptr) (f : Field) (p : Ptr)
    (hp : p ∈ narrowed g rx heap handle h f) : p ∈ h := by
  unfold narrowed at hp
  by_cases h1 : g.terms f = []
  · simpa [h1] using hp
  · rw [if_neg h1] at hp
    exact mem_of_mem_gathered _ _ _ _ hp

theorem mem_of_mem_fold_narrowed (g : Criteria) (rx : Regcomp) (heap : Ptr → alpm_pkg_t)
    (handle : alpm_handle_t) :
    ∀ (fs : List Field) (h : List Ptr) (p : Ptr),
      p ∈ fs.foldl (narrowed g rx heap handle) h → p ∈ h := by
  intro fs
  induction fs with
  | nil => intro h p hp; exact hp
  | cons f fs ih =>
    intro h p hp
    rw [List.foldl_cons] at hp
    exact mem_of_mem_narrowed g rx heap handle h f p (ih _ p hp)

theorem narrowed_eq_narrow (g : Criteria) (rx : Regcomp) (heap : Ptr → alpm_pkg_t)
    (handle : alpm_handle_t) (h : List Nat) (hn : near h) (f : Field) :
    narrowed g rx heap handle h f = narrow g rx heap handle h f := by
  unfold narrowed narrow
  by_cases h1 : g.terms f = []
  · simp [h1]
  · simp only [h1, if_false]
    exact (gathered_eq_gather _ _ h hn).1

theorem mem_narrow_imp (g : Criteria) (rx : Regcomp) (heap : Ptr → alpm_pkg_t)
    (handle : alpm_handle_t) (h : List Ptr) (f : Field) (p : Ptr)
    (hp : p ∈ narrow g rx heap handle h f) : p ∈ h := by
  unfold narrow at hp
  by_cases h1 : g.terms f = []
  · simpa [h1] using hp
  · rw [if_neg h1] at hp
    exact ((mem_gather _ _ _ _).mp hp).1

theorem fold_narrowed_eq (g : Criteria) (rx : Regcomp) (heap : Ptr → alpm_pkg_t)
    (handle : alpm_handle_t) :
    ∀ (fs : List Field) (h : List Nat), near h →
      fs.foldl (narrowed g rx heap handle) h = fs.foldl (narrow g rx heap handle) h := by
  intro fs
  induction fs with
  | nil => intro h _; rfl
  | cons f fs ih =>
    intro h hn
    rw [List.foldl_cons, List.foldl_cons, narrowed_eq_narrow g rx heap handle h hn f]
    exact ih _ (near_of_subset (fun x hx => mem_narrow_imp g rx heap handle h f x hx) hn)

theorem mem_fold_narrow (g : Criteria) (rx : Regcomp) (heap : Ptr → alpm_pkg_t)
    (handle : alpm_handle_t) :
    ∀ (fs : List Field) (h : List Ptr) (p : Ptr),
      p ∈ fs.foldl (narrow g rx heap handle) h ↔
        p ∈ h ∧ ∀ f ∈ fs, g.terms f ≠ [] →
          ∃ t ∈ g.terms f, term_test g rx heap handle f t p = true := by
  intro fs
  induction fs with
  | nil => intro h p; simp
  | cons f fs ih =>
    intro h p
    rw [List.foldl_cons, ih]
    simp only [List.mem_cons, forall_eq_or_imp]
    by_cases h1 : g.terms f = []
    · simp [narrow, h1]
    · simp only [narrow, h1, if_false, mem_gather, ne_eq, not_false_eq_true, forall_true_left]
      tauto

theorem mem_all_fields (f : Field) : f ∈ Field.all := by
  cases f <;> simp [Field.all]

theorem terms_valid_iff (g : Criteria) (rx : Regcomp) (handle : alpm_handle_t) :
    terms_valid g rx handle = true ↔
      ∀ f, (g.terms f).all (term_ok g rx handle f) = true := by
  unfold terms_valid
  rw [List.all_eq_true]
  constructor
  · intro h f; exact h f (mem_all_fields f)
  · intro h f _; exact h f

theorem filter_pkgs_and (g : Criteria) (rx : Regcomp) (heap : Ptr → alpm_pkg_t)
    (handle : alpm_handle_t) (pkgs : List Ptr) (hor : g.or = false)
    (hv : terms_valid g rx handle = true) :
    filter_pkgs g rx heap handle pkgs
      = some (if g.invert then
                alpm_list_diff ptr_cmp pkgs (Field.all.foldl (narrowed g rx heap handle) pkgs)
              else Field.all.foldl (narrowed g rx heap handle) pkgs) := by
  rw [filter_pkgs_eq_fold,
    fold_and g rx heap handle hor Field.all pkgs
      (fun f _ => (terms_valid_iff g rx handle).mp hv f)]
  rfl

theorem filter_pkgs_and_near (g : Criteria) (rx : Regcomp) (heap : Ptr → alpm_pkg_t)
    (handle : alpm_handle_t) (pkgs : List Nat) (hn : near pkgs) (hor : g.or = false)
    (hv : terms_valid g rx handle = true) :
    filter_pkgs g rx heap handle pkgs
      = some (if g.invert then
                alpm_list_diff ptr_cmp pkgs (Field.all.foldl (narrow g rx heap handle) pkgs)
              else Field.all.foldl (narrow g rx heap handle) pkgs) := by
  rw [filter_pkgs_and g rx heap handle pkgs hor hv, fold_narrowed_eq g rx heap handle _ pkgs hn]

theorem mem_filter_pkgs_and (g : Criteria) (rx : Regcomp) (heap : Ptr → alpm_pkg_t)
    (handle : alpm_handle_t) (pkgs : List Nat) (hn : near pkgs)
    (hor : g.or = false) (hinv : g.invert = false)
    (hv : terms_valid g rx handle = true) :
    ∃ r, filter_pkgs g rx heap handle pkgs = some r ∧
      ∀ p, p ∈ r ↔ p ∈ pkgs ∧ ∀ f, g.terms f ≠ [] →
        ∃ t ∈ g.terms f, term_test g rx heap handle f t p = true := by
  refine ⟨_, filter_pkgs_and_near g rx heap handle pkgs hn hor hv, ?_⟩
  intro p
  simp only [hinv, Bool.false_eq_true, if_false, mem_fold_narrow]
  constructor
  · rintro ⟨h1, h2⟩
    exact ⟨h1, fun f => h2 f (mem_all_fields f)⟩
  · rintro ⟨h1, h2⟩
    exact ⟨h1, fun f _ => h2 f⟩

theorem field_step_invert (g : Criteria) (b : Bool) (rx : Regcomp) (heap : Ptr → alpm_pkg_t)
    (handle : alpm_handle_t) :
    field_step { g with invert := b } rx heap handle = field_step g rx heap handle := by
  funext st f
  cases f <;> rfl

/-! ## Lemmas: strings and dependencies -/

theorem strcmp_chars_eq_zero : ∀ (a b : List Char), strcmp_chars a b = 0 ↔ a = b := by
  intro a
  induction a with
  | nil => intro b; cases b <;> simp [strcmp_chars]
  | cons x xs ih =>
    intro b
    cases b with
    | nil => simp [strcmp_chars]
    | cons y ys =>
      by_cases h : x = y
      · simp [strcmp_chars, h, ih]
      · by_cases h2 : x.toNat < y.toNat <;> simp [strcmp_chars, h, h2]

theorem strcmp_eq_zero (s1 s2 : String) : strcmp s1 s2 = 0 ↔ s1 = s2 := by
  unfold strcmp
  rw [strcmp_chars_eq_zero]
  exact ⟨fun h => String.ext h, fun h => by rw [h]⟩

theorem strcasecmp_chars_eq_zero :
    ∀ (a b : List Char), strcasecmp_chars a b = 0 ↔ a.map tolower = b.map tolower := by
  intro a
  induction a with
  | nil => intro b; cases b <;> simp [strcasecmp_chars]
  | cons x xs ih =>
    intro b
    cases b with
    | nil => simp [strcasecmp_chars]
    | cons y ys =>
      by_cases h : tolower x = tolower y
      · simp [strcasecmp_chars, h, ih]
      · by_cases h2 : (tolower x).toNat < (tolower y).toNat <;>
          simp [strcasecmp_chars, h, h2]

theorem strcasecmp_eq_zero (s1 s2 : String) :
    strcasecmp s1 s2 = 0 ↔ lowercase s1 = lowercase s2 := by
  unfold strcasecmp lowercase
  exact strcasecmp_chars_eq_zero _ _

theorem starts_nocase_iff :
    ∀ (n h : List Char), starts_nocase n h = true ↔ n.map tolower <+: h.map tolower := by
  intro n
  induction n with
  | nil => intro h; simp [starts_nocase]
  | cons x xs ih =>
    intro h
    cases h with
    | nil => simp [starts_nocase]
    | cons y ys =>
      simp only [starts_nocase, Bool.and_eq_true, beq_iff_eq, ih, List.map_cons,
        List.cons_prefix_cons]

theorem strcasestr_chars_isSome :
    ∀ (h n : List Char),
      (strcasestr_chars h n).isSome = true ↔ n.map tolower <:+: h.map tolower := by
  intro h
  induction h with
  | nil =>
    intro n
    cases n <;> simp [strcasestr_chars, starts_nocase]
  | cons y ys ih =>
    intro n
    rw [List.map_cons, List.infix_cons_iff, ← List.map_cons, ← starts_nocase_iff, ← ih]
    by_cases hs : starts_nocase n (y :: ys) = true
    · simp [strcasestr_chars, hs]
    · simp [strcasestr_chars, hs]

theorem strcasestr_isSome (s t : String) :
    (strcasestr s t).isSome = true ↔ lowercase t <:+: lowercase s := by
  unfold strcasestr lowercase
  exact strcasestr_chars_isSome _ _

theorem alpm_list_find_isSome {α β : Type} (fn : α → β → Int) (needle : β) :
    ∀ (l : List α),
      (alpm_list_find fn l needle).isSome = true ↔ ∃ d ∈ l, fn d needle = 0 := by
  intro l
  induction l with
  | nil => simp [alpm_list_find]
  | cons d rest ih =>
    by_cases h : fn d needle = 0
    · simp [alpm_list_find, h]
    · simp [alpm_list_find, h, ih]

theorem alpm_list_find_str_isSome (l : List String) (str : String) :
    (alpm_list_find_str l str).isSome = true ↔ str ∈ l := by
  unfold alpm_list_find_str
  rw [alpm_list_find_isSome]
  constructor
  · rintro ⟨d, hd, h0⟩
    rw [strcmp_eq_zero] at h0
    rw [← h0]; exact hd
  · intro h
    exact ⟨str, h, (strcmp_eq_zero _ _).mpr rfl⟩

theorem depcmp_eq_zero (g : Criteria) (d needle : alpm_depend_t) :
    depcmp g d needle = 0 ↔
      d.name = needle.name ∧
        ((needle.version = none ∧ g.exact = false) ∨
          (d.mod = needle.mod ∧ alpm_pkg_vercmp needle.version d.version = 0)) := by
  unfold depcmp
  by_cases hn : needle.name = d.name
  · have h1 : ¬ (needle.name_hash ≠ d.name_hash ∨ strcmp needle.name d.name ≠ 0) := by
      simp [alpm_depend_t.name_hash, hn, strcmp_eq_zero]
    rw [if_neg h1]
    by_cases h2 : g.exact = false ∧ needle.version = none
    · rw [if_pos h2]
      simp [hn, h2.1, h2.2]
    · rw [if_neg h2]
      by_cases h3 : needle.mod = d.mod ∧ alpm_pkg_vercmp needle.version d.version = 0
      · rw [if_pos h3]
        simp [hn, h3.1, h3.2]
      · rw [if_neg h3]
        simp only [one_ne_zero, false_iff]
        rintro ⟨_, hh | hh⟩
        · exact h2 ⟨hh.2, hh.1⟩
        · exact h3 ⟨hh.1.symm, hh.2⟩
  · have h1 : needle.name_hash ≠ d.name_hash ∨ strcmp needle.name d.name ≠ 0 := by
      right
      rw [Ne, strcmp_eq_zero]
      exact hn
    rw [if_pos h1]
    simp only [one_ne_zero, false_iff]
    rintro ⟨hh, _⟩
    exact hn hh.symm

/-! ## Lemmas: editing the criteria, inactive fields, order -/

theorem terms_with_terms (g : Criteria) (F : Field) (ts : List String) (f : Field) :
    (g.with_terms F ts).terms f = if f = F then ts else g.terms f := by
  cases F <;> cases f <;> rfl

theorem term_test_with_terms (g : Criteria) (F : Field) (ts : List String) (rx : Regcomp)
    (heap : Ptr → alpm_pkg_t) (handle : alpm_handle_t) :
    term_test (g.with_terms F ts) rx heap handle = term_test g rx heap handle := by
  cases F <;> rfl

theorem term_ok_with_terms (g : Criteria) (F : Field) (ts : List String) (rx : Regcomp)
    (handle : alpm_handle_t) :
    term_ok (g.with_terms F ts) rx handle = term_ok g rx handle := by
  cases F <;> rfl

theorem or_with_terms (g : Criteria) (F : Field) (ts : List String) :
    (g.with_terms F ts).or = g.or := by
  cases F <;> rfl

theorem invert_with_terms (g : Criteria) (F : Field) (ts : List String) :
    (g.with_terms F ts).invert = g.invert := by
  cases F <;> rfl

theorem terms_keep (g : Criteria) (k : Field → Bool) (f : Field) :
    (g.keep k).terms f = if k f = true then g.terms f else [] := by
  cases f <;> rfl

theorem terms_only (g : Criteria) (F f : Field) :
    (g.only F).terms f = if f = F then g.terms f else [] := by
  unfold Criteria.only
  rw [terms_keep]
  by_cases h : f = F <;> simp [h]

theorem term_test_keep (g : Criteria) (k : Field → Bool) (rx : Regcomp)
    (heap : Ptr → alpm_pkg_t) (handle : alpm_handle_t) :
    term_test (g.keep k) rx heap handle = term_test g rx heap handle := rfl

theorem term_ok_keep (g : Criteria) (k : Field → Bool) (rx : Regcomp)
    (handle : alpm_handle_t) :
    term_ok (g.keep k) rx handle = term_ok g rx handle := rfl

theorem terms_valid_keep (g : Criteria) (k : Field → Bool) (rx : Regcomp)
    (handle : alpm_handle_t) (hv : terms_valid g rx handle = true) :
    terms_valid (g.keep k) rx handle = true := by
  rw [terms_valid_iff] at hv ⊢
  intro f
  rw [terms_keep, term_ok_keep]
  by_cases h : k f = true
  · simpa [h] using hv f
  · simp [h]

theorem single_term_run (g : Criteria) (rx : Regcomp) (heap : Ptr → alpm_pkg_t)
    (handle : alpm_handle_t) (pkgs : List Nat) (hn : near pkgs) (F : Field) (t : String)
    (hsingle : ∀ f, f ≠ F → g.terms f = []) (hinv : g.invert = false) (hor : g.or = false)
    (hok : term_ok g rx handle F t = true) :
    ∃ rt, filter_pkgs (g.with_terms F [t]) rx heap handle pkgs = some rt ∧
      ∀ p, p ∈ rt ↔ p ∈ pkgs ∧ term_test g rx heap handle F t p = true := by
  have hv : terms_valid (g.with_terms F [t]) rx handle = true := by
    rw [terms_valid_iff]
    intro f
    rw [terms_with_terms, term_ok_with_terms]
    by_cases h : f = F
    · subst h; simp [hok]
    · simp [h, hsingle f h]
  obtain ⟨rt, hrt, hmem⟩ := mem_filter_pkgs_and (g.with_terms F [t]) rx heap handle pkgs hn
    (by rw [or_with_terms]; exact hor) (by rw [invert_with_terms]; exact hinv) hv
  refine ⟨rt, hrt, fun p => ?_⟩
  rw [hmem, term_test_with_terms]
  constructor
  · rintro ⟨hp, hall⟩
    have := hall F (by rw [terms_with_terms]; simp)
    rw [terms_with_terms] at this
    simp only [if_true, List.mem_singleton, exists_eq_left] at this
    exact ⟨hp, this⟩
  · rintro ⟨hp, ht⟩
    refine ⟨hp, fun f hf => ?_⟩
    rw [terms_with_terms] at hf ⊢
    by_cases h : f = F
    · subst h; simpa using ht
    · simp [h, hsingle f h] at hf

theorem fold_inactive (g : Criteria) (rx : Regcomp) (heap : Ptr → alpm_pkg_t)
    (handle : alpm_handle_t) (hnone : ∀ f, g.terms f = []) :
    ∀ (fs : List Field) (st : List Ptr × List Ptr),
      fs.foldl (field_step g rx heap handle) (some st) = some st := by
  intro fs
  induction fs with
  | nil => intro st; rfl
  | cons f fs ih =>
    intro st
    obtain ⟨m, h⟩ := st
    rw [List.foldl_cons]
    have : field_step g rx heap handle (some (m, h)) f = some (m, h) := by
      rw [field_step, Option.some_bind, match_field_eq, if_pos (hnone f)]
    rw [this]
    exact ih _

theorem step_sublist (g : Criteria) (rx : Regcomp) (heap : Ptr → alpm_pkg_t)
    (handle : alpm_handle_t) (f : Field) (m h m1 h1 : List Ptr)
    (hlen : (g.terms f).length ≤ 1) (hm : g.or = false → m = [])
    (hs : field_step g rx heap handle (some (m, h)) f = some (m1, h1)) :
    h1.Sublist h ∧ (g.or = false → m1 = []) := by
  simp only [field_step, Option.some_bind, match_field_eq] at hs
  by_cases c1 : g.terms f = []
  · simp only [c1, if_true, Option.some.injEq, Prod.mk.injEq] at hs
    rw [← hs.1, ← hs.2]
    exact ⟨List.Sublist.refl _, hm⟩
  · by_cases c2 : (g.terms f).all (term_ok g rx handle f) = true
    · by_cases c3 : g.or = false
      · simp only [c1, c2, c3, if_true, if_false, Option.some.injEq, Prod.mk.injEq] at hs
        rw [← hs.1, ← hs.2, hm c3, List.nil_append]
        refine ⟨?_, fun _ => rfl⟩
        match hts : g.terms f, hlen with
        | [], _ => exact absurd hts c1
        | [t], _ =>
          simp only [gathered, List.append_nil]
          exact List.filter_sublist _
        | _ :: _ :: _, hl => simp at hl
      · have c4 : g.or = true := by simpa using c3
        simp only [c1, c2, c4, if_true, if_false, Bool.true_eq_false, Option.some.injEq,
          Prod.mk.injEq] at hs
        rw [← hs.2]
        exact ⟨drained_sublist _ _ _, fun hf => absurd hf c3⟩
    · simp [c1, c2] at hs

theorem fold_sublist (g : Criteria) (rx : Regcomp) (heap : Ptr → alpm_pkg_t)
    (handle : alpm_handle_t) (hlen : ∀ f, (g.terms f).length ≤ 1) :
    ∀ (fs : List Field) (m h m1 h1 : List Ptr), (g.or = false → m = []) →
      fs.foldl (field_step g rx heap handle) (some (m, h)) = some (m1, h1) →
      h1.Sublist h := by
  intro fs
  induction fs with
  | nil =>
    intro m h m1 h1 _ hs
    simp only [List.foldl_nil, Option.some.injEq, Prod.mk.injEq] at hs
    rw [← hs.2]
  | cons f fs ih =>
    intro m h m1 h1 hm hs
    rw [List.foldl_cons] at hs
    cases hstep : field_step g rx heap handle (some (m, h)) f with
    | none => rw [hstep, fold_none] at hs; cases hs
    | some st =>
      obtain ⟨m2, h2⟩ := st
      rw [hstep] at hs
      have h3 := step_sublist g rx heap handle f m h m2 h2 (hlen f) hm hstep
      exact (ih m2 h2 m1 h1 h3.2 hs).trans h3.1

/-! ## Lemmas: the fuel of the version comparison -/

theorem length_dropWhile_le (q : Char → Bool) (l : List Char) :
    (l.dropWhile q).length ≤ l.length :=
  (List.dropWhile_suffix q).length_le

theorem length_dropWhile_lt (q : Char → Bool) (l : List Char)
    (h : l.takeWhile q ≠ []) : (l.dropWhile q).length < l.length := by
  have h1 := congrArg List.length (List.takeWhile_append_dropWhile q l)
  rw [List.length_append] at h1
  have h2 : 0 < (l.takeWhile q).length := List.length_pos.mpr h
  omega

theorem rpmvercmp_segment_zero (isnum : Bool) (seg1 seg2 : List Char)
    (h : rpmvercmp_segment isnum seg1 seg2 = 0) : seg1 ≠ [] := by
  intro h1
  simp [rpmvercmp_segment, h1] at h

theorem rpmvercmp_round_shorter (one two one1 two1 : List Char)
    (h : rpmvercmp_round one two = .inr (one1, two1)) : one1.length < one.length := by
  unfold rpmvercmp_round at h
  by_cases c1 : one = [] ∨ two = []
  · rw [if_pos c1] at h; cases h
  · rw [if_neg c1] at h
    simp only [] at h
    by_cases c2 : one.dropWhile (fun c => !isalnum c) = [] ∨
        two.dropWhile (fun c => !isalnum c) = []
    · rw [if_pos c2] at h; cases h
    · rw [if_neg c2] at h
      by_cases c3 : one.length - (one.dropWhile (fun c => !isalnum c)).length ≠
          two.length - (two.dropWhile (fun c => !isalnum c)).length
      · rw [if_pos c3] at h; cases h
      · rw [if_neg c3] at h
        split at h
        · cases h
        · rename_i c4
          simp only [Sum.inr.injEq, Prod.mk.injEq] at h
          rw [← h.1]
          have hz := rpmvercmp_segment_zero _ _ _ (not_not.mp c4)
          have hlt := length_dropWhile_lt _ _ hz
          have hle := length_dropWhile_le (fun c => !isalnum c) one
          omega

theorem rpmvercmp_loop_fuel :
    ∀ (fuel1 fuel2 : Nat) (one two : List Char), one.length < fuel1 → one.length < fuel2 →
      rpmvercmp_loop fuel1 one two = rpmvercmp_loop fuel2 one two := by
  intro fuel1
  induction fuel1 with
  | zero => intro fuel2 one two h1; omega
  | succ a ih =>
    intro fuel2 one two h1 h2
    cases fuel2 with
    | zero => omega
    | succ b =>
      simp only [rpmvercmp_loop]
      cases hr : rpmvercmp_round one two with
      | inl ret => rfl
      | inr st =>
        obtain ⟨one1, two1⟩ := st
        have := rpmvercmp_round_shorter one two one1 two1 hr
        exact ih b one1 two1 (by omega) (by omega)

/-! ## Lemmas: the root directory, fatal errors, missing data -/

theorem strncmp_chars_eq_zero :
    ∀ (r s : List Char), strncmp_chars s r r.length = 0 ↔ r <+: s := by
  intro r
  induction r with
  | nil => intro s; simp [strncmp_chars]
  | cons b bs ih =>
    intro s
    cases s with
    | nil => simp [strncmp_chars]
    | cons a as =>
      by_cases h : a = b
      · subst h
        simp only [List.length_cons, strncmp_chars, if_true, ih, List.cons_prefix_cons, true_and]
      · have h1 : ¬ b = a := fun hh => h hh.symm
        by_cases h2 : a.toNat < b.toNat <;>
          simp [strncmp_chars, h, h1, h2, List.cons_prefix_cons]

theorem skip_root_eq (T R : String) :
    skip_root T R (strlen R)
      = if R.data <+: T.data then String.mk (T.data.drop (strlen R)) else T := by
  unfold skip_root strncmp strlen
  by_cases h : R.data <+: T.data
  · rw [if_pos ((strncmp_chars_eq_zero _ _).mpr h), if_pos h]
  · rw [if_neg (fun hh => h ((strncmp_chars_eq_zero _ _).mp hh)), if_neg h]

theorem skip_root_empty (T : String) : skip_root T "" (strlen "") = T := by
  rw [skip_root_eq, if_pos (@List.nil_prefix _ T.data)]
  rfl

theorem filter_filelist_skip (g : Criteria) (rx : Regcomp) (heap : Ptr → alpm_pkg_t)
    (pkgs : List Ptr) (T R : String) (n : Nat) :
    filter_filelist g rx heap pkgs T R n
      = filter_filelist g rx heap pkgs (skip_root T R n) "" (strlen "") := by
  unfold filter_filelist
  rw [skip_root_empty]

theorem fold_fields_none_iff (g : Criteria) (rx : Regcomp) (heap : Ptr → alpm_pkg_t)
    (handle : alpm_handle_t) :
    ∀ (fs : List Field) (st : List Ptr × List Ptr),
      fs.foldl (field_step g rx heap handle) (some st) = none ↔
        ∃ f ∈ fs, (g.terms f).all (term_ok g rx handle f) = false := by
  intro fs
  induction fs with
  | nil => intro st; simp
  | cons f fs ih =>
    intro st
    obtain ⟨m, h⟩ := st
    rw [List.foldl_cons]
    by_cases hok : (g.terms f).all (term_ok g rx handle f) = true
    · have hstep : ∃ st1, field_step g rx heap handle (some (m, h)) f = some st1 := by
        rw [field_step, Option.some_bind, match_field_eq]
        by_cases h1 : g.terms f = []
        · exact ⟨_, if_pos h1⟩
        · rw [if_neg h1, if_pos hok]
          by_cases h2 : g.or = false
          · exact ⟨_, if_pos h2⟩
          · exact ⟨_, if_neg h2⟩
      obtain ⟨st1, hst1⟩ := hstep
      rw [hst1, ih]
      simp only [List.mem_cons, exists_eq_or_imp, hok, Bool.true_eq_false, false_or]
    · have hne : g.terms f ≠ [] := by
        intro h1
        rw [h1] at hok
        exact hok rfl
      have hstep : field_step g rx heap handle (some (m, h)) f = none := by
        rw [field_step, Option.some_bind, match_field_eq, if_neg hne, if_neg hok]
      rw [hstep, fold_none]
      simp only [List.mem_cons, exists_eq_or_imp, true_iff]
      left
      simpa using hok

theorem filter_pkgs_none_iff (g : Criteria) (rx : Regcomp) (heap : Ptr → alpm_pkg_t)
    (handle : alpm_handle_t) (pkgs : List Ptr) :
    filter_pkgs g rx heap handle pkgs = none ↔
      ∃ f, ∃ t ∈ g.terms f, term_ok g rx handle f t = false := by
  rw [filter_pkgs_eq_fold, Option.map_eq_none', fold_fields_none_iff]
  constructor
  · rintro ⟨f, _, hf⟩
    rw [List.all_eq_false] at hf
    obtain ⟨t, ht, hok⟩ := hf
    exact ⟨f, t, ht, by simpa using hok⟩
  · rintro ⟨f, t, ht, hok⟩
    refine ⟨f, mem_all_fields f, ?_⟩
    rw [List.all_eq_false]
    exact ⟨t, ht, by simpa using hok⟩

theorem str_match_none (re exact : Bool) (rx : Regcomp) (t : String) :
    str_match re exact rx t none = false := rfl

theorem filelist_match_nil (re exact : Bool) (rx : Regcomp) (t root : String) (n : Nat) :
    filelist_match re exact rx t root n [] = false := by
  unfold filelist_match
  cases re <;> cases exact <;> cases rx (skip_root t root n) <;>
    simp [alpm_filelist_contains, alpm_list_find]

theorem term_test_missing (g : Criteria) (rx : Regcomp) (heap : Ptr → alpm_pkg_t)
    (handle : alpm_handle_t) (f : Field) (t : String) (p : Ptr)
    (hmiss : missing_data f (heap p) = true) :
    term_test g rx heap handle f t p = false := by
  cases f <;> simp only [missing_data, Bool.false_eq_true] at hmiss
  · simp only [term_test, Option.isNone_iff_eq_none.mp hmiss, str_match_none]
  · simp only [term_test, Option.isNone_iff_eq_none.mp hmiss, str_match_none]
  · simp only [term_test, Option.isNone_iff_eq_none.mp hmiss, str_match_none]
  · simp only [term_test, List.isEmpty_iff.mp hmiss, filelist_match_nil]

theorem mem_inverted_of_unmatched (g : Criteria) (rx : Regcomp) (heap : Ptr → alpm_pkg_t)
    (handle : alpm_handle_t) (pkgs : List Nat) (hn : near pkgs) (F : Field) (p : Nat)
    (hor : g.or = false) (hinv : g.invert = true) (hv : terms_valid g rx handle = true)
    (hF : g.terms F ≠ []) (hp : p ∈ pkgs)
    (hno : ∀ t ∈ g.terms F, term_test g rx heap handle F t p = false) :
    ∃ r, filter_pkgs g rx heap handle pkgs = some r ∧ p ∈ r := by
  refine ⟨_, filter_pkgs_and_near g rx heap handle pkgs hn hor hv, ?_⟩
  rw [if_pos hinv, (alpm_list_diff_perm pkgs hn _ _ (fun x hx => hx)
    (fun x hx => ((mem_fold_narrow g rx heap handle _ _ x).mp hx).1)).mem_iff]
  apply List.mem_diff_of_mem hp
  rw [mem_fold_narrow]
  rintro ⟨_, hall⟩
  obtain ⟨t, ht, htest⟩ := hall F (mem_all_fields F) hF
  rw [hno t ht] at htest
  cases htest

theorem eq_none_of_isSome_false {α : Type} {o : Option α} (h : o.isSome = false) :
    o = none := by
  cases o with
  | none => rfl
  | some a => cases h

/-! ## Lemmas: Exact against Substring, single terms, multiplicity -/

theorem alpm_dep_from_string_isSome (s : String) : (alpm_dep_from_string s).isSome = true := by
  unfold alpm_dep_from_string
  simp only []
  split
  · split <;> rfl
  · split
    · split <;> rfl
    · split <;> rfl

theorem strcasestr_self (s : String) : (strcasestr s s).isSome = true :=
  (strcasestr_isSome s s).mpr (List.infix_refl _)

theorem any_strcasestr_of_mem (l : List String) (t : String) (h : t ∈ l) :
    l.any (fun f => (strcasestr f t).isSome) = true :=
  List.any_eq_true.mpr ⟨t, h, strcasestr_self t⟩

theorem str_match_exact_imp (rx : Regcomp) (t : String) (v : Option String)
    (h : str_match false true rx t v = true) : str_match false false rx t v = true := by
  cases v with
  | none => exact h
  | some s =>
    simp only [str_match, Bool.false_eq_true, if_false, if_true, decide_eq_true_eq] at h ⊢
    rw [strcasecmp_eq_zero] at h
    rw [strcasestr_isSome, h]

theorem strlist_match_exact_imp (rx : Regcomp) (t : String) (l : List String)
    (h : strlist_match false true rx t l = true) : strlist_match false false rx t l = true := by
  simp only [strlist_match, Bool.false_eq_true, if_false, if_true] at h ⊢
  rw [alpm_list_find_str_isSome] at h
  exact any_strcasestr_of_mem l t h

theorem filelist_match_exact_imp (rx : Regcomp) (t root : String) (n : Nat) (l : List String)
    (h : filelist_match false true rx t root n l = true) :
    filelist_match false false rx t root n l = true := by
  simp only [filelist_match, Bool.false_eq_true, if_false, if_true] at h ⊢
  have h1 : (alpm_list_find_str l (skip_root t root n)).isSome = true := h
  rw [alpm_list_find_str_isSome] at h1
  exact any_strcasestr_of_mem l _ h1

theorem depcmp_exact_imp (g : Criteria) (d needle : alpm_depend_t)
    (h : depcmp { g with exact := true } d needle = 0) :
    depcmp { g with exact := false } d needle = 0 := by
  rw [depcmp_eq_zero] at h ⊢
  refine ⟨h.1, ?_⟩
  rcases h.2 with h2 | h2
  · exact absurd h2.2 (by simp)
  · exact Or.inr h2

theorem deplist_match_exact_imp (g : Criteria) (t : String) (deps : List alpm_depend_t)
    (h : deplist_match { g with exact := true } t deps = true) :
    deplist_match { g with exact := false } t deps = true := by
  unfold deplist_match at h ⊢
  cases hd : alpm_dep_from_string t with
  | none => rw [hd] at h; cases h
  | some needle =>
    rw [hd] at h
    simp only [alpm_list_find_isSome] at h ⊢
    obtain ⟨d, hd1, hd2⟩ := h
    exact ⟨d, hd1, depcmp_exact_imp g d needle hd2⟩

theorem term_test_exact_imp (g : Criteria) (rx : Regcomp) (heap : Ptr → alpm_pkg_t)
    (handle : alpm_handle_t) (f : Field) (t : String) (p : Ptr) (hre : g.re = false)
    (h : term_test { g with exact := true } rx heap handle f t p = true) :
    term_test { g with exact := false } rx heap handle f t p = true := by
  cases f <;> simp only [term_test, hre] at h ⊢
  · exact str_match_exact_imp rx t _ h
  · exact str_match_exact_imp rx t _ h
  · exact str_match_exact_imp rx t _ h
  · exact str_match_exact_imp rx t _ h
  · exact strlist_match_exact_imp rx t _ h
  · exact filelist_match_exact_imp rx t _ _ _ h
  · exact deplist_match_exact_imp g t _ h
  · exact deplist_match_exact_imp g t _ h
  · exact deplist_match_exact_imp g t _ h
  · exact deplist_match_exact_imp g t _ h

theorem terms_valid_exact (g : Criteria) (b : Bool) (rx : Regcomp) (handle : alpm_handle_t) :
    terms_valid { g with exact := b } rx handle = terms_valid g rx handle := rfl

theorem narrowed_single (g : Criteria) (rx : Regcomp) (heap : Ptr → alpm_pkg_t)
    (handle : alpm_handle_t) (f : Field) (h : List Ptr) (hlen : (g.terms f).length ≤ 1) :
    narrowed g rx heap handle h f
      = h.filter (fun p => (g.terms f).all (fun t => term_test g rx heap handle f t p)) := by
  unfold narrowed
  match hts : g.terms f, hlen with
  | [], _ => simp
  | [t], _ => simp [gathered]
  | _ :: _ :: _, hl => simp at hl

theorem fold_narrowed_single (g : Criteria) (rx : Regcomp) (heap : Ptr → alpm_pkg_t)
    (handle : alpm_handle_t) (hlen : ∀ f, (g.terms f).length ≤ 1) :
    ∀ (fs : List Field) (h : List Ptr),
      fs.foldl (narrowed g rx heap handle) h
        = h.filter (fun p => fs.all (fun f =>
            (g.terms f).all (fun t => term_test g rx heap handle f t p))) := by
  intro fs
  induction fs with
  | nil => intro h; simp
  | cons f fs ih =>
    intro h
    rw [List.foldl_cons, narrowed_single g rx heap handle f h (hlen f), ih, List.filter_filter]
    apply List.filter_congr
    intro p _
    simp only [List.all_cons, Bool.and_comm]

theorem subperm_nodup {l1 l2 : List Ptr} (h : l1.Subperm l2) (hn : l2.Nodup) : l1.Nodup := by
  obtain ⟨l, hl, hsub⟩ := h
  exact hl.nodup_iff.mp (hn.sublist hsub)

theorem step_subperm (g : Criteria) (rx : Regcomp) (heap : Ptr → alpm_pkg_t)
    (handle : alpm_handle_t) (f : Field) (m h m1 h1 : List Nat) (hn : near (m ++ h))
    (hs : field_step g rx heap handle (some (m, h)) f = some (m1, h1)) :
    (m1 ++ h1).Subperm (m ++ h) := by
  have hnh : near h := near_of_subset (fun x hx => List.mem_append_right m hx) hn
  have hgl := gathered_eq_gather (term_test g rx heap handle f) (g.terms f) h hnh
  simp only [field_step, Option.some_bind, match_field_eq, hgl.1, hgl.2] at hs
  by_cases c1 : g.terms f = []
  · simp only [c1, if_true, Option.some.injEq, Prod.mk.injEq] at hs
    rw [← hs.1, ← hs.2]
  · by_cases c2 : (g.terms f).all (term_ok g rx handle f) = true
    · by_cases c3 : g.or = false
      · simp only [c1, c2, c3, if_true, if_false, Option.some.injEq, Prod.mk.injEq] at hs
        rw [← hs.1, ← hs.2, List.nil_append]
        exact (List.subperm_append_left m).mpr (gather_subperm _ _ _)
      · have c4 : g.or = true := by simpa using c3
        simp only [c1, c2, c4, if_true, if_false, Bool.true_eq_false, Option.some.injEq,
          Prod.mk.injEq] at hs
        rw [← hs.1, ← hs.2, List.append_assoc]
        exact ((gather_perm _ _ _).append_left m).subperm
    · simp [c1, c2] at hs

theorem fold_subperm (g : Criteria) (rx : Regcomp) (heap : Ptr → alpm_pkg_t)
    (handle : alpm_handle_t) :
    ∀ (fs : List Field) (m h m1 h1 : List Nat), near (m ++ h) →
      fs.foldl (field_step g rx heap handle) (some (m, h)) = some (m1, h1) →
      (m1 ++ h1).Subperm (m ++ h) := by
  intro fs
  induction fs with
  | nil =>
    intro m h m1 h1 _ hs
    simp only [List.foldl_nil, Option.some.injEq, Prod.mk.injEq] at hs
    rw [← hs.1, ← hs.2]
  | cons f fs ih =>
    intro m h m1 h1 hn hs
    rw [List.foldl_cons] at hs
    cases hstep : field_step g rx heap handle (some (m, h)) f with
    | none => rw [hstep, fold_none] at hs; cases hs
    | some st =>
      obtain ⟨m2, h2⟩ := st
      rw [hstep] at hs
      have h3 := step_subperm g rx heap handle f m h m2 h2 hn hstep
      exact (ih m2 h2 m1 h1 (near_of_subset (fun x hx => h3.subset hx) hn) hs).trans h3

theorem filter_pkgs_subperm (g : Criteria) (rx : Regcomp) (heap : Ptr → alpm_pkg_t)
    (handle : alpm_handle_t) (pkgs r : List Nat) (hn : near pkgs)
    (hr : filter_pkgs g rx heap handle pkgs = some r) : r.Subperm pkgs := by
  rw [filter_pkgs_eq_fold] at hr
  cases hst : Field.all.foldl (field_step g rx heap handle) (some ([], pkgs)) with
  | none => rw [hst] at hr; cases hr
  | some st =>
    obtain ⟨m, h⟩ := st
    rw [hst] at hr
    simp only [Option.map_some', Option.some.injEq] at hr
    have hsub : h.Subperm pkgs :=
      ((List.sublist_append_right m h).subperm).trans
        (fold_subperm g rx heap handle Field.all [] pkgs m h hn hst)
    cases hinv : g.invert
    · rw [hinv] at hr
      simp only [Bool.false_eq_true, if_false] at hr
      rw [← hr]
      exact hsub
    · rw [hinv] at hr
      simp only [if_true] at hr
      rw [← hr]
      exact (alpm_list_diff_perm pkgs hn pkgs h (fun x hx => hx)
        (fun x hx => hsub.subset hx)).subperm.trans (List.diff_sublist pkgs h).subperm

/-! ## Lemmas: the order of the fields -/

theorem mem_spec_order (f : Field) : f ∈ Field.spec_order := by
  cases f <;> simp [Field.spec_order]

theorem filter_pkgs_eq_pipeline (g : Criteria) (rx : Regcomp) (heap : Ptr → alpm_pkg_t)
    (handle : alpm_handle_t) (pkgs : List Ptr) :
    filter_pkgs g rx heap handle pkgs = pipeline Field.all g rx heap handle pkgs := rfl

theorem pipeline_none_iff (order : List Field) (horder : ∀ f, f ∈ order) (g : Criteria)
    (rx : Regcomp) (heap : Ptr → alpm_pkg_t) (handle : alpm_handle_t) (pkgs : List Ptr) :
    pipeline order g rx heap handle pkgs = none ↔
      ∃ f, ∃ t ∈ g.terms f, term_ok g rx handle f t = false := by
  unfold pipeline
  rw [Option.map_eq_none', fold_fields_none_iff]
  constructor
  · rintro ⟨f, _, hf⟩
    rw [List.all_eq_false] at hf
    obtain ⟨t, ht, hok⟩ := hf
    exact ⟨f, t, ht, by simpa using hok⟩
  · rintro ⟨f, t, ht, hok⟩
    refine ⟨f, horder f, ?_⟩
    rw [List.all_eq_false]
    exact ⟨t, ht, by simpa using hok⟩

theorem pipeline_and (order : List Field) (g : Criteria) (rx : Regcomp)
    (heap : Ptr → alpm_pkg_t) (handle : alpm_handle_t) (pkgs : List Ptr) (hor : g.or = false)
    (hv : terms_valid g rx handle = true) :
    pipeline order g rx heap handle pkgs
      = some (if g.invert then
                alpm_list_diff ptr_cmp pkgs (order.foldl (narrowed g rx heap handle) pkgs)
              else order.foldl (narrowed g rx heap handle) pkgs) := by
  unfold pipeline alpm_list_copy
  rw [fold_and g rx heap handle hor order pkgs
      (fun f _ => (terms_valid_iff g rx handle).mp hv f)]
  rfl

theorem valid_of_some (g : Criteria) (rx : Regcomp) (heap : Ptr → alpm_pkg_t)
    (handle : alpm_handle_t) (pkgs r : List Ptr)
    (hr : filter_pkgs g rx heap handle pkgs = some r) : terms_valid g rx handle = true := by
  rw [terms_valid_iff]
  intro f
  rw [List.all_eq_true]
  intro t ht
  cases hok : term_ok g rx handle f t with
  | true => rfl
  | false =>
    have hnone := (filter_pkgs_none_iff g rx heap handle pkgs).mpr ⟨f, t, ht, hok⟩
    rw [hnone] at hr
    cases hr

theorem all_fields_order (order : List Field) (horder : ∀ f, f ∈ order) (q : Field → Bool) :
    order.all q = Field.all.all q := by
  rw [Bool.eq_iff_iff, List.all_eq_true, List.all_eq_true]
  exact ⟨fun h f _ => h f (horder f), fun h f _ => h f (mem_all_fields f)⟩

/-! ## Lemmas: the layout of the result in cells, idempotence -/

theorem blocks_cons (c : Ptr → Bool) (C : List (Ptr → Bool)) (h : List Ptr) :
    blocks (c :: C) h = h.filter c ++ blocks C h := by
  simp [blocks]

theorem blocks_append (C1 C2 : List (Ptr → Bool)) (h : List Ptr) :
    blocks (C1 ++ C2) h = blocks C1 h ++ blocks C2 h := by
  simp [blocks]

theorem filter_blocks (q : Ptr → Bool) (C : List (Ptr → Bool)) (h : List Ptr) :
    (blocks C h).filter q = blocks C (h.filter q) := by
  induction C with
  | nil => simp [blocks]
  | cons c C ih =>
    rw [blocks_cons, blocks_cons, List.filter_append, ih, List.filter_filter,
      List.filter_filter]
    congr 1
    apply List.filter_congr
    intro p _
    exact Bool.and_comm _ _

theorem blocks_map_and (a : Ptr → Bool) (C : List (Ptr → Bool)) (h : List Ptr) :
    blocks (C.map (fun c p => a p && c p)) h = blocks C (h.filter a) := by
  induction C with
  | nil => simp [blocks]
  | cons c C ih =>
    rw [List.map_cons, blocks_cons, blocks_cons, ih, List.filter_filter]
    congr 1
    apply List.filter_congr
    intro p _
    exact Bool.and_comm _ _

theorem blocks_product (C2 C1 : List (Ptr → Bool)) (h : List Ptr) :
    blocks (cell_product C2 C1) h = blocks C2 (blocks C1 h) := by
  induction C2 with
  | nil => simp [blocks, cell_product]
  | cons c2 C2 ih =>
    have hp : cell_product (c2 :: C2) C1
        = C1.map (fun c1 p => c2 p && c1 p) ++ cell_product C2 C1 := by
      simp [cell_product]
    rw [hp, blocks_append, blocks_map_and, ih, blocks_cons, filter_blocks]

theorem gather_eq_blocks (test : String → Ptr → Bool) :
    ∀ (ts : List String) (h : List Ptr), gather test ts h = blocks (term_cells test ts) h := by
  intro ts
  induction ts with
  | nil => intro h; simp [gather, blocks, term_cells]
  | cons t ts ih =>
    intro h
    rw [gather, term_cells, blocks_cons, ih, blocks_map_and]

theorem blocks_whole (h : List Ptr) : blocks [fun _ => true] h = h := by
  simp [blocks]

theorem narrow_eq_blocks (g : Criteria) (rx : Regcomp) (heap : Ptr → alpm_pkg_t)
    (handle : alpm_handle_t) (h : List Ptr) (f : Field) :
    narrow g rx heap handle h f = blocks (field_cells g rx heap handle f) h := by
  unfold narrow field_cells
  by_cases h1 : g.terms f = []
  · rw [if_pos h1, if_pos h1, blocks_whole]
  · rw [if_neg h1, if_neg h1, gather_eq_blocks]

theorem fold_narrow_eq_blocks (g : Criteria) (rx : Regcomp) (heap : Ptr → alpm_pkg_t)
    (handle : alpm_handle_t) :
    ∀ (fs : List Field) (h : List Ptr),
      fs.foldl (narrow g rx heap handle) h = blocks (fields_cells g rx heap handle fs) h := by
  intro fs
  induction fs with
  | nil => intro h; rw [List.foldl_nil, fields_cells, blocks_whole]
  | cons f fs ih =>
    intro h
    rw [List.foldl_cons, ih, narrow_eq_blocks, fields_cells, blocks_product]

theorem mem_blocks (C : List (Ptr → Bool)) (h : List Ptr) (p : Ptr) :
    p ∈ blocks C h ↔ p ∈ h ∧ ∃ c ∈ C, c p = true := by
  induction C with
  | nil => simp [blocks]
  | cons c C ih =>
    rw [blocks_cons, List.mem_append, List.mem_filter, ih]
    simp only [List.mem_cons, exists_eq_or_imp]
    tauto

theorem blocks_append_of_none (C : List (Ptr → Bool)) (a b : List Ptr)
    (hnone : ∀ p ∈ a, ∀ c ∈ C, c p = false) : blocks C (a ++ b) = blocks C b := by
  induction C with
  | nil => simp [blocks]
  | cons c C ih =>
    rw [blocks_cons, blocks_cons, List.filter_append,
      ih (fun p hp c1 hc1 => hnone p hp c1 (List.mem_cons_of_mem _ hc1))]
    have hnil : a.filter c = [] := by
      rw [List.filter_eq_nil_iff]
      intro p hp
      rw [hnone p hp c (List.mem_cons_self _ _)]
      simp
    rw [hnil, List.nil_append]

theorem blocks_idem (C : List (Ptr → Bool)) (hd : cells_disjoint C) :
    ∀ h : List Ptr, blocks C (blocks C h) = blocks C h := by
  induction C with
  | nil => intro h; simp [blocks]
  | cons c0 C ih =>
    intro h
    have hd' := List.pairwise_cons.mp hd
    have hfirst : (h.filter c0 ++ blocks C h).filter c0 = h.filter c0 := by
      rw [List.filter_append, List.filter_filter]
      have hnil : (blocks C h).filter c0 = [] := by
        rw [List.filter_eq_nil_iff]
        intro p hp hc0
        obtain ⟨_, c, hc, hcp⟩ := (mem_blocks C h p).mp hp
        rw [hd'.1 c hc p hc0] at hcp
        cases hcp
      rw [hnil, List.append_nil]
      apply List.filter_congr
      intro p _
      simp
    have hrest : blocks C (h.filter c0 ++ blocks C h) = blocks C h := by
      rw [blocks_append_of_none C _ _
        (fun p hp c hc => hd'.1 c hc p (List.mem_filter.mp hp).2)]
      exact ih hd'.2 h
    rw [blocks_cons, blocks_cons, hfirst, hrest]

theorem term_cells_disjoint (test : String → Ptr → Bool) :
    ∀ ts : List String, cells_disjoint (term_cells test ts) := by
  intro ts
  induction ts with
  | nil => exact List.Pairwise.nil
  | cons t ts ih =>
    unfold cells_disjoint at ih ⊢
    rw [term_cells, List.pairwise_cons]
    constructor
    · intro c1 hc1 p hp
      obtain ⟨c, _, rfl⟩ := List.mem_map.mp hc1
      simp [hp]
    · rw [List.pairwise_map]
      refine ih.imp ?_
      intro c c1 hcc p hp
      simp only [Bool.and_eq_true, Bool.not_eq_true'] at hp
      simp [hcc p hp.2]

theorem cell_product_disjoint (C2 C1 : List (Ptr → Bool)) (h2 : cells_disjoint C2)
    (h1 : cells_disjoint C1) : cells_disjoint (cell_product C2 C1) := by
  induction C2 with
  | nil => simp [cell_product, cells_disjoint]
  | cons c2 C2 ih =>
    have hp : cell_product (c2 :: C2) C1
        = C1.map (fun c1 p => c2 p && c1 p) ++ cell_product C2 C1 := by
      simp [cell_product]
    have h2' := List.pairwise_cons.mp h2
    unfold cells_disjoint at h1 ih ⊢
    rw [hp, List.pairwise_append]
    refine ⟨?_, ih h2'.2, ?_⟩
    · rw [List.pairwise_map]
      refine h1.imp ?_
      intro c c1 hcc p hp1
      simp only [Bool.and_eq_true] at hp1
      simp [hcc p hp1.2]
    · intro a ha b hb p hpa
      obtain ⟨c1, _, rfl⟩ := List.mem_map.mp ha
      simp only [cell_product, List.mem_flatMap, List.mem_map] at hb
      obtain ⟨c2', hc2', c1', _, rfl⟩ := hb
      simp only [Bool.and_eq_true] at hpa
      simp [h2'.1 c2' hc2' p hpa.1]

theorem field_cells_disjoint (g : Criteria) (rx : Regcomp) (heap : Ptr → alpm_pkg_t)
    (handle : alpm_handle_t) (f : Field) : cells_disjoint (field_cells g rx heap handle f) := by
  unfold field_cells
  by_cases h1 : g.terms f = []
  · rw [if_pos h1]
    exact List.pairwise_singleton _ _
  · rw [if_neg h1]
    exact term_cells_disjoint _ _

theorem fields_cells_disjoint (g : Criteria) (rx : Regcomp) (heap : Ptr → alpm_pkg_t)
    (handle : alpm_handle_t) :
    ∀ fs : List Field, cells_disjoint (fields_cells g rx heap handle fs) := by
  intro fs
  induction fs with
  | nil => exact List.pairwise_singleton _ _
  | cons f fs ih =>
    exact cell_product_disjoint _ _ ih (field_cells_disjoint g rx heap handle f)

theorem fold_narrow_idem (g : Criteria) (rx : Regcomp) (heap : Ptr → alpm_pkg_t)
    (handle : alpm_handle_t) (fs : List Field) (h : List Ptr) :
    fs.foldl (narrow g rx heap handle) (fs.foldl (narrow g rx heap handle) h)
      = fs.foldl (narrow g rx heap handle) h := by
  rw [fold_narrow_eq_blocks, fold_narrow_eq_blocks]
  exact blocks_idem _ (fields_cells_disjoint g rx heap handle fs) h


/-! ## Lemmas: the option parser and the `or` flag -/

/-- OR within a field, for records that `ptr_cmp` tells apart. When the input
addresses lie less than 2^31 apart, `F` is the only active field, `invert` and
`or` are off and every term is valid, then in every match mode the run succeeds,
so does every run in which the term list of `F` is cut down to one of its terms,
and a record is returned iff one of these single-term runs returns it. -/
theorem union_of_terms_of_near (g : Criteria) (rx : Regcomp) (heap : Ptr → alpm_pkg_t)
    (handle : alpm_handle_t) (pkgs : List Nat) (hn : near pkgs) (F : Field)
    (hF : g.terms F ≠ []) (hsingle : ∀ f, f ≠ F → g.terms f = [])
    (hinv : g.invert = false) (hor : g.or = false)
    (hv : terms_valid g rx handle = true) :
    ∃ r, filter_pkgs g rx heap handle pkgs = some r ∧
      (∀ t ∈ g.terms F, ∃ rt,
        filter_pkgs (g.with_terms F [t]) rx heap handle pkgs = some rt) ∧
      ∀ p, p ∈ r ↔ ∃ t ∈ g.terms F, ∃ rt,
        filter_pkgs (g.with_terms F [t]) rx heap handle pkgs = some rt ∧ p ∈ rt := by
  obtain ⟨r, hr, hmem⟩ := mem_filter_pkgs_and g rx heap handle pkgs hn hor hinv hv
  have hok : ∀ t ∈ g.terms F, term_ok g rx handle F t = true := fun t ht =>
    List.all_eq_true.mp ((terms_valid_iff g rx handle).mp hv F) t ht
  refine ⟨r, hr, ?_, fun p => ?_⟩
  · intro t ht
    obtain ⟨rt, hrt, _⟩ :=
      single_term_run g rx heap handle pkgs hn F t hsingle hinv hor (hok t ht)
    exact ⟨rt, hrt⟩
  · rw [hmem]
    constructor
    · rintro ⟨hp, hall⟩
      obtain ⟨t, ht, htest⟩ := hall F hF
      obtain ⟨rt, hrt, hmem1⟩ :=
        single_term_run g rx heap handle pkgs hn F t hsingle hinv hor (hok t ht)
      exact ⟨t, ht, rt, hrt, (hmem1 p).mpr ⟨hp, htest⟩⟩
    · rintro ⟨t, ht, rt, hrt, hprt⟩
      obtain ⟨rt1, hrt1, hmem1⟩ :=
        single_term_run g rx heap handle pkgs hn F t hsingle hinv hor (hok t ht)
      rw [hrt] at hrt1
      cases hrt1
      have h2 := (hmem1 p).mp hprt
      refine ⟨h2.1, fun f hf => ?_⟩
      by_cases h : f = F
      · subst h; exact ⟨t, ht, h2.2⟩
      · exact absurd (hsingle f h) hf

/-- An instance of `union_of_terms_of_near`: name = ["ba", "zs"] over bash, zsh
and an unnamed record returns bash and zsh, the union of the runs for "ba" and
for "zs". -/
theorem union_of_terms_of_near_example :
    filter_pkgs { Criteria.blank with name := ["ba", "zs"] } no_regex heap_shells
        root_handle [1, 2, 3] = some [1, 2] ∧
    filter_pkgs { Criteria.blank with name := ["ba"] } no_regex heap_shells
        root_handle [1, 2, 3] = some [1] ∧
    filter_pkgs { Criteria.blank with name := ["zs"] } no_regex heap_shells
        root_handle [1, 2, 3] = some [2] ∧
    ∃ r, filter_pkgs { Criteria.blank with name := ["ba", "zs"] } no_regex heap_shells
        root_handle [1, 2, 3] = some r ∧
      (∀ t ∈ ["ba", "zs"], ∃ rt,
        filter_pkgs (Criteria.with_terms { Criteria.blank with name := ["ba", "zs"] }
          Field.name [t]) no_regex heap_shells root_handle [1, 2, 3] = some rt) ∧
      ∀ p, p ∈ r ↔ ∃ t ∈ ["ba", "zs"], ∃ rt,
        filter_pkgs (Criteria.with_terms { Criteria.blank with name := ["ba", "zs"] }
          Field.name [t]) no_regex heap_shells root_handle [1, 2, 3] = some rt ∧ p ∈ rt :=
  ⟨by decide, by decide, by decide,
   union_of_terms_of_near { Criteria.blank with name := ["ba", "zs"] } no_regex heap_shells
     root_handle [1, 2, 3] (by unfold near; decide) Field.name (by decide)
     (by intro f hf; cases f <;> first | rfl | exact absurd rfl hf)
     rfl rfl (by decide)⟩

/-- C1, the code at the failing input. Record A at address 4096 is named "zz"
and record B, 2^32 bytes further, is named "ab"; `ptr_cmp` finds A equal to B.
With name = ["ab", "zz"] the first term matches B, `alpm_list_remove` takes A
out of the haystack in its place, and the run returns B alone, while the runs
for "ab" and for "zz" return B and A: A is in the union and not in the result. -/
theorem or_within_field_far_records :
    ptr_cmp 4096 4294971392 = 0 ∧
    filter_str { Criteria.blank with name := ["ab", "zz"] } no_regex heap_far
        [4096, 4294971392] "ab" alpm_pkg_get_name = some ([4294971392], [4294971392]) ∧
    filter_pkgs { Criteria.blank with name := ["ab", "zz"] } no_regex heap_far
        root_handle [4096, 4294971392] = some [4294971392] ∧
    filter_pkgs (Criteria.with_terms { Criteria.blank with name := ["ab", "zz"] }
        Field.name ["ab"]) no_regex heap_far root_handle [4096, 4294971392]
      = some [4294971392] ∧
    filter_pkgs (Criteria.with_terms { Criteria.blank with name := ["ab", "zz"] }
        Field.name ["zz"]) no_regex heap_far root_handle [4096, 4294971392]
      = some [4096] := by
  decide

/-- AND across fields, for records that `ptr_cmp` tells apart. When the input
addresses lie less than 2^31 apart, exactly the two fields `F1` and `F2` are
active, `invert` and `or` are off and every term is valid, the run succeeds, so
do the runs with only `F1` and with only `F2` active, and a record is returned
iff both of these runs, each over the original input, return it. -/
theorem intersection_of_fields_of_near (g : Criteria) (rx : Regcomp) (heap : Ptr → alpm_pkg_t)
    (handle : alpm_handle_t) (pkgs : List Nat) (hn : near pkgs) (F1 F2 : Field)
    (hne : F1 ≠ F2) (h1 : g.terms F1 ≠ []) (h2 : g.terms F2 ≠ [])
    (hother : ∀ f, f ≠ F1 → f ≠ F2 → g.terms f = [])
    (hinv : g.invert = false) (hor : g.or = false)
    (hv : terms_valid g rx handle = true) :
    ∃ r r1 r2, filter_pkgs g rx heap handle pkgs = some r ∧
      filter_pkgs (g.only F1) rx heap handle pkgs = some r1 ∧
      filter_pkgs (g.only F2) rx heap handle pkgs = some r2 ∧
      ∀ p, p ∈ r ↔ p ∈ r1 ∧ p ∈ r2 := by
  obtain ⟨r, hr, hmem⟩ := mem_filter_pkgs_and g rx heap handle pkgs hn hor hinv hv
  obtain ⟨r1, hr1, hmem1⟩ := mem_filter_pkgs_and (g.only F1) rx heap handle pkgs hn hor hinv
    (terms_valid_keep g _ rx handle hv)
  obtain ⟨r2, hr2, hmem2⟩ := mem_filter_pkgs_and (g.only F2) rx heap handle pkgs hn hor hinv
    (terms_valid_keep g _ rx handle hv)
  have key : ∀ (F : Field) (p : Ptr),
      (∀ f, (g.only F).terms f ≠ [] →
        ∃ t ∈ (g.only F).terms f, term_test (g.only F) rx heap handle f t p = true) ↔
      (g.terms F ≠ [] → ∃ t ∈ g.terms F, term_test g rx heap handle F t p = true) := by
    intro F p
    constructor
    · intro h hF
      have := h F (by rw [terms_only]; simpa using hF)
      rw [terms_only] at this
      simpa [Criteria.only, term_test_keep] using this
    · intro h f hf
      rw [terms_only] at hf ⊢
      by_cases hfF : f = F
      · subst hfF
        simp only [if_true] at hf ⊢
        simpa [Criteria.only, term_test_keep] using h hf
      · simp [hfF] at hf
  refine ⟨r, r1, r2, hr, hr1, hr2, fun p => ?_⟩
  rw [hmem, hmem1, hmem2, key, key]
  constructor
  · rintro ⟨hp, hall⟩
    exact ⟨⟨hp, hall F1⟩, ⟨hp, hall F2⟩⟩
  · rintro ⟨⟨hp, hA⟩, ⟨_, hB⟩⟩
    refine ⟨hp, fun f hf => ?_⟩
    by_cases hf1 : f = F1
    · subst hf1; exact hA hf
    · by_cases hf2 : f = F2
      · subst hf2; exact hB hf
      · exact absurd (hother f hf1 hf2) hf

/-- An instance of `intersection_of_fields_of_near` (scenario 4): name = ["foo"]
and repo = ["core"] over foo in core, foobar in extra and bar in core returns
foo only; name alone returns foo and foobar, repo alone returns foo and bar. -/
theorem intersection_of_fields_of_near_example :
    filter_pkgs { Criteria.blank with name := ["foo"], repo := ["core"] } no_regex heap_repos
        root_handle [1, 2, 3] = some [1] ∧
    filter_pkgs (Criteria.only { Criteria.blank with name := ["foo"], repo := ["core"] }
        Field.name) no_regex heap_repos root_handle [1, 2, 3] = some [1, 2] ∧
    filter_pkgs (Criteria.only { Criteria.blank with name := ["foo"], repo := ["core"] }
        Field.repo) no_regex heap_repos root_handle [1, 2, 3] = some [1, 3] ∧
    ∃ r r1 r2,
      filter_pkgs { Criteria.blank with name := ["foo"], repo := ["core"] } no_regex heap_repos
        root_handle [1, 2, 3] = some r ∧
      filter_pkgs (Criteria.only { Criteria.blank with name := ["foo"], repo := ["core"] }
        Field.name) no_regex heap_repos root_handle [1, 2, 3] = some r1 ∧
      filter_pkgs (Criteria.only { Criteria.blank with name := ["foo"], repo := ["core"] }
        Field.repo) no_regex heap_repos root_handle [1, 2, 3] = some r2 ∧
      ∀ p, p ∈ r ↔ p ∈ r1 ∧ p ∈ r2 :=
  ⟨by decide, by decide, by decide,
   intersection_of_fields_of_near { Criteria.blank with name := ["foo"], repo := ["core"] }
     no_regex heap_repos root_handle [1, 2, 3] (by unfold near; decide) Field.name Field.repo
     (by decide) (by decide) (by decide)
     (by intro f hf1 hf2; cases f <;> first | rfl | exact absurd rfl hf1 | exact absurd rfl hf2)
     rfl rfl (by decide)⟩

/-- C2, the code at the failing input. Record A at address 4096 is "zz" in
repository "qq" and record B, 2^32 bytes further, is "ab" in "pp". With
name = ["zz"] and repo = ["pp", "qq"] both fields active return A; with only
the name field active the run returns A, but with only the repo field active it
returns B alone, because the match of "pp" takes A out of the haystack before
"qq" is tried: A is returned although it is not in both single-field results. -/
theorem and_across_fields_far_records :
    filter_pkgs { Criteria.blank with name := ["zz"], repo := ["pp", "qq"] } no_regex heap_far
        root_handle [4096, 4294971392] = some [4096] ∧
    filter_pkgs (Criteria.only { Criteria.blank with name := ["zz"], repo := ["pp", "qq"] }
        Field.name) no_regex heap_far root_handle [4096, 4294971392] = some [4096] ∧
    filter_pkgs (Criteria.only { Criteria.blank with name := ["zz"], repo := ["pp", "qq"] }
        Field.repo) no_regex heap_far root_handle [4096, 4294971392] = some [4294971392] ∧
    term_test { Criteria.blank with name := ["zz"], repo := ["pp", "qq"] } no_regex heap_far
        root_handle Field.repo "qq" 4096 = true := by
  decide

/-- Invert partition, for records that `ptr_cmp` tells apart. For a
duplicate-free input whose addresses lie less than 2^31 apart and any criteria
on which filtering succeeds, the inverted and the uninverted result are disjoint
and together hold exactly the input records. -/
theorem partition_of_near (g : Criteria) (rx : Regcomp) (heap : Ptr → alpm_pkg_t)
    (handle : alpm_handle_t) (pkgs ri ru : List Nat) (hn : near pkgs) (hnd : pkgs.Nodup)
    (hi : filter_pkgs { g with invert := true } rx heap handle pkgs = some ri)
    (hu : filter_pkgs { g with invert := false } rx heap handle pkgs = some ru) :
    (∀ p, p ∈ ri → p ∉ ru) ∧ (∀ p, p ∈ pkgs ↔ p ∈ ri ∨ p ∈ ru) := by
  rw [filter_pkgs_eq_fold, field_step_invert] at hi hu
  cases hst : Field.all.foldl (field_step g rx heap handle) (some ([], pkgs)) with
  | none => rw [hst] at hu; cases hu
  | some st =>
    obtain ⟨m, h⟩ := st
    rw [hst] at hi hu
    simp only [Option.map_some', if_true, Bool.false_eq_true, if_false,
      Option.some.injEq] at hi hu
    subst hi hu
    have hsub : h.Subperm pkgs :=
      ((List.sublist_append_right m h).subperm).trans
        (fold_subperm g rx heap handle Field.all [] pkgs m h hn hst)
    have hmem : ∀ p, p ∈ alpm_list_diff ptr_cmp pkgs h ↔ p ∈ pkgs ∧ p ∉ h := fun p => by
      rw [(alpm_list_diff_perm pkgs hn pkgs h (fun x hx => hx)
        (fun x hx => hsub.subset hx)).mem_iff, hnd.mem_diff_iff]
    constructor
    · intro p hp
      exact ((hmem p).mp hp).2
    · intro p
      rw [hmem]
      constructor
      · intro hp
        by_cases hh : p ∈ h
        · exact Or.inr hh
        · exact Or.inl ⟨hp, hh⟩
      · rintro (hp | hp)
        · exact hp.1
        · exact hsub.subset hp

/-- An instance of `partition_of_near` (scenario 2): with group = ["devel"], A in
base and devel and B in base, the uninverted run returns A and the inverted run
returns B. -/
theorem partition_of_near_example :
    filter_pkgs { Criteria.blank with group := ["devel"], invert := false } no_regex
        heap_groups root_handle [1, 2] = some [1] ∧
    filter_pkgs { Criteria.blank with group := ["devel"], invert := true } no_regex
        heap_groups root_handle [1, 2] = some [2] ∧
    (∀ p, p ∈ [2] → p ∉ [1]) ∧ (∀ p, p ∈ [1, 2] ↔ p ∈ [2] ∨ p ∈ [1]) :=
  ⟨by decide, by decide,
   partition_of_near { Criteria.blank with group := ["devel"] } no_regex heap_groups
     root_handle [1, 2] [2] [1] (by unfold near; decide) (by decide) (by decide) (by decide)⟩

/-- C3, the code at the failing input. Record A at address 4096 is named "zz"
and record B, 2^32 bytes further, is named "ab". With name = ["ab"] over the
duplicate-free input A, B the uninverted run returns B, and the inverted run
returns B as well, because `alpm_list_diff` compares with `ptr_cmp`, which
finds A equal to B: the two results are not disjoint and A is in neither. -/
theorem invert_partition_far_records :
    List.Nodup [4096, 4294971392] ∧
    filter_pkgs { Criteria.blank with name := ["ab"], invert := false } no_regex heap_far
        root_handle [4096, 4294971392] = some [4294971392] ∧
    filter_pkgs { Criteria.blank with name := ["ab"], invert := true } no_regex heap_far
        root_handle [4096, 4294971392] = some [4294971392] ∧
    alpm_list_diff ptr_cmp [4096, 4294971392] [4294971392] = [4294971392] := by
  decide

/-- C4, as stated, fails: with name = ["zsh", "bash"] over the input bash, zsh
the result is zsh, bash (the matches of the first term come first), and with
`invert` on and a term that matches nothing, the input 2, 1, 3 comes back as
3, 2, 1 (ordered by address); neither is a subsequence of its input. -/
theorem order_counterexample :
    (∃ r, filter_pkgs { Criteria.blank with name := ["zsh", "bash"] } no_regex heap_shells
        root_handle [1, 2] = some r ∧ ¬ r.Sublist [1, 2]) ∧
    (∃ r, filter_pkgs { Criteria.blank with name := ["nothing"], invert := true } no_regex
        heap_shells root_handle [2, 1, 3] = some r ∧ ¬ r.Sublist [2, 1, 3]) :=
  ⟨⟨[2, 1], by decide, by decide⟩, ⟨[3, 2, 1], by decide, by decide⟩⟩

/-- C4, amended (order preservation). With `invert` off and no field holding
more than one term, the list returned by a successful run is a subsequence of
the input list. -/
theorem order_preserved_single_terms (g : Criteria) (rx : Regcomp)
    (heap : Ptr → alpm_pkg_t) (handle : alpm_handle_t) (pkgs r : List Ptr)
    (hinv : g.invert = false) (hlen : ∀ f, (g.terms f).length ≤ 1)
    (hr : filter_pkgs g rx heap handle pkgs = some r) :
    r.Sublist pkgs := by
  rw [filter_pkgs_eq_fold] at hr
  cases hst : Field.all.foldl (field_step g rx heap handle) (some ([], pkgs)) with
  | none => rw [hst] at hr; cases hr
  | some st =>
    obtain ⟨m, h⟩ := st
    rw [hst] at hr
    simp only [Option.map_some', hinv, Bool.false_eq_true, if_false, Option.some.injEq] at hr
    subst hr
    exact fold_sublist g rx heap handle hlen Field.all [] pkgs m h (fun _ => rfl) hst

/-- Witness of C4 amended: name = ["foo"] over the input 3, 2, 1 (bar, foobar,
foo) returns 2, 1. -/
theorem order_preserved_single_terms_witness :
    filter_pkgs { Criteria.blank with name := ["foo"] } no_regex heap_repos
        root_handle [3, 2, 1] = some [2, 1] ∧
    List.Sublist [2, 1] [3, 2, 1] :=
  ⟨by decide,
   order_preserved_single_terms { Criteria.blank with name := ["foo"] }
     no_regex heap_repos root_handle [3, 2, 1] [2, 1] rfl
     (by intro f; cases f <;> decide) (by decide)⟩

/-- C5 (identity filter). With no active field, in every match mode and for
every input, the run returns the input list itself when `invert` is off and the
empty list when `invert` is on. -/
theorem identity_filter (g : Criteria) (rx : Regcomp) (heap : Ptr → alpm_pkg_t)
    (handle : alpm_handle_t) (pkgs : List Ptr) (hnone : ∀ f, g.terms f = []) :
    (g.invert = false → filter_pkgs g rx heap handle pkgs = some pkgs) ∧
    (g.invert = true → filter_pkgs g rx heap handle pkgs = some []) := by
  rw [filter_pkgs_eq_fold, fold_inactive g rx heap handle hnone]
  constructor
  · intro hinv
    simp [hinv]
  · intro hinv
    simp [hinv, alpm_list_diff_self]

/-- Witness of C5: the blank criteria over the input 2, 1, 1, 3, with `invert`
off and on. -/
theorem identity_filter_witness :
    (filter_pkgs Criteria.blank no_regex heap_shells root_handle [2, 1, 1, 3]
        = some [2, 1, 1, 3]) ∧
    (filter_pkgs { Criteria.blank with invert := true, exact := true } no_regex heap_shells
        root_handle [2, 1, 1, 3] = some []) :=
  ⟨(identity_filter Criteria.blank no_regex heap_shells root_handle [2, 1, 1, 3]
      (by intro f; cases f <;> rfl)).1 rfl,
   (identity_filter { Criteria.blank with invert := true, exact := true } no_regex heap_shells
      root_handle [2, 1, 1, 3] (by intro f; cases f <;> rfl)).2 rfl⟩

/-- C6, the code at the failing input: the packager field is read through
`alpm_pkg_get_desc`.  For a record with packager "Alice" and description
"GNU shell", packager = ["alice"] returns nothing and packager = ["shell"]
returns the record. -/
theorem packager_reads_description :
    filter_pkgs { Criteria.blank with packager := ["alice"] } no_regex heap_packager
        root_handle [1] = some [] ∧
    filter_pkgs { Criteria.blank with packager := ["shell"] } no_regex heap_packager
        root_handle [1] = some [1] ∧
    (strcasestr "Alice" "alice").isSome = true ∧
    (strcasestr "Alice" "shell").isSome = false := by
  decide

/-- C7, as stated, fails: the term "glibc>=2.30" matches the record that depends
on glibc>=2.30-1, although no entry of that record has the version string
"2.30"; `depcmp` compares versions with `alpm_pkg_vercmp`, for which 2.30 and
2.30-1 are the same version. -/
theorem depcmp_counterexample :
    alpm_dep_from_string "glibc>=2.30"
      = some { name := "glibc", version := some "2.30", mod := .ALPM_DEP_MOD_GE } ∧
    ∃ found rest,
      filter_deplist Criteria.blank heap_glibc [3] "glibc>=2.30" alpm_pkg_get_depends
        = some (found, rest) ∧
      ¬ (3 ∈ found ↔ ∃ d ∈ alpm_pkg_get_depends (heap_glibc 3),
          dep_matches_by_string Criteria.blank.exact d
            { name := "glibc", version := some "2.30", mod := .ALPM_DEP_MOD_GE } = true) :=
  ⟨by decide, [3], [], by decide, by decide⟩

/-- C7, amended (dependency comparator). For a term that parses to `needle`, a
record of the haystack matches iff its list has an entry `d` with the name of
`needle` and either `needle` has no version and Exact is off, or `d` has the
operator of `needle` and `alpm_pkg_vercmp` finds the two versions equal; an
entry with the same operator and the same version string always qualifies. -/
theorem depcmp_by_vercmp (g : Criteria) (heap : Ptr → alpm_pkg_t) (pkgs : List Ptr)
    (str : String) (func : alpm_pkg_t → List alpm_depend_t) (needle : alpm_depend_t)
    (hparse : alpm_dep_from_string str = some needle) :
    ∃ found rest, filter_deplist g heap pkgs str func = some (found, rest) ∧
      (∀ p, p ∈ found ↔ p ∈ pkgs ∧ ∃ d ∈ func (heap p),
        d.name = needle.name ∧
          ((needle.version = none ∧ g.exact = false) ∨
            (d.mod = needle.mod ∧ alpm_pkg_vercmp needle.version d.version = 0))) ∧
      (∀ p ∈ pkgs, (∃ d ∈ func (heap p), dep_matches_by_string g.exact d needle = true) →
        p ∈ found) := by
  have hmatch : ∀ p, deplist_match g str (func (heap p)) = true ↔
      ∃ d ∈ func (heap p), d.name = needle.name ∧
        ((needle.version = none ∧ g.exact = false) ∨
          (d.mod = needle.mod ∧ alpm_pkg_vercmp needle.version d.version = 0)) := by
    intro p
    simp only [deplist_match, hparse, alpm_list_find_isSome, depcmp_eq_zero]
  have hself : ∀ v : Option String, alpm_pkg_vercmp v v = 0 := by
    intro v
    cases v with
    | none => rfl
    | some a => simp [alpm_pkg_vercmp, (strcmp_eq_zero a a).mpr rfl]
  refine ⟨_, _,
    (filter_deplist_eq g heap pkgs str func).trans (if_pos (by simp [hparse])), ?_, ?_⟩
  · intro p
    rw [List.mem_filter, hmatch]
  · rintro p hp ⟨d, hd, hdm⟩
    rw [List.mem_filter, hmatch]
    refine ⟨hp, d, hd, ?_⟩
    simp only [dep_matches_by_string, Bool.decide_and, Bool.decide_or, Bool.and_eq_true,
      Bool.or_eq_true, decide_eq_true_eq] at hdm
    refine ⟨hdm.1, ?_⟩
    rcases hdm.2 with h | h
    · exact Or.inl h
    · exact Or.inr ⟨h.1, by rw [h.2]; exact hself _⟩

/-- Witness of C7 amended (scenario 3): the term "glibc>=2.30" matches the
record depending on glibc>=2.30 and not the one depending on glibc>=2.28. -/
theorem depcmp_by_vercmp_witness :
    filter_deplist Criteria.blank heap_glibc [1, 2] "glibc>=2.30" alpm_pkg_get_depends
      = some ([1], [2]) ∧
    ∃ found rest,
      filter_deplist Criteria.blank heap_glibc [1, 2] "glibc>=2.30" alpm_pkg_get_depends
        = some (found, rest) ∧
      (∀ p, p ∈ found ↔ p ∈ [1, 2] ∧ ∃ d ∈ alpm_pkg_get_depends (heap_glibc p),
        d.name = "glibc" ∧
          (((some "2.30" : Option String) = none ∧ Criteria.blank.exact = false) ∨
            (d.mod = .ALPM_DEP_MOD_GE ∧ alpm_pkg_vercmp (some "2.30") d.version = 0))) ∧
      (∀ p ∈ [1, 2], (∃ d ∈ alpm_pkg_get_depends (heap_glibc p),
          dep_matches_by_string Criteria.blank.exact d
            { name := "glibc", version := some "2.30", mod := .ALPM_DEP_MOD_GE } = true) →
        p ∈ found) :=
  ⟨by decide,
   depcmp_by_vercmp Criteria.blank heap_glibc [1, 2] "glibc>=2.30" alpm_pkg_get_depends
     { name := "glibc", version := some "2.30", mod := .ALPM_DEP_MOD_GE } (by decide)⟩

/-- C8 (substring strategy). With `re` and `exact` off, `filter_str` succeeds
and puts a record of the haystack among the matches iff its field value `S` is
present and the lowercase form of the term occurs as a contiguous part of the
lowercase form of `S`; a record whose value is absent is never matched. -/
theorem filter_str_substring (g : Criteria) (rx : Regcomp) (heap : Ptr → alpm_pkg_t)
    (pkgs : List Ptr) (T : String) (func : alpm_pkg_t → Option String)
    (hre : g.re = false) (hex : g.exact = false) :
    ∃ found rest, filter_str g rx heap pkgs T func = some (found, rest) ∧
      (∀ p, p ∈ found ↔ p ∈ pkgs ∧ ∃ S, func (heap p) = some S ∧
        lowercase T <:+: lowercase S) ∧
      (∀ p, func (heap p) = none → p ∉ found) := by
  have hmatch : ∀ p, str_match g.re g.exact rx T (func (heap p)) = true ↔
      ∃ S, func (heap p) = some S ∧ lowercase T <:+: lowercase S := by
    intro p
    cases hS : func (heap p) with
    | none => simp [str_match]
    | some S => simp [str_match, hre, hex, strcasestr_isSome]
  refine ⟨_, _, (filter_str_eq g rx heap pkgs T func).trans (if_pos (by simp [hre])), ?_, ?_⟩
  · intro p
    rw [List.mem_filter, hmatch]
  · intro p hnone hin
    rw [List.mem_filter, hmatch] at hin
    obtain ⟨_, S, hS, _⟩ := hin
    rw [hnone] at hS
    cases hS

/-- Witness of C8 (scenario 1): name = ["sh"] over bash, zsh and a record
without a name matches bash and zsh. -/
theorem filter_str_substring_witness :
    filter_str Criteria.blank no_regex heap_shells [1, 2, 3] "sh" alpm_pkg_get_name
      = some ([1, 2], [3]) ∧
    ∃ found rest,
      filter_str Criteria.blank no_regex heap_shells [1, 2, 3] "sh" alpm_pkg_get_name
        = some (found, rest) ∧
      (∀ p, p ∈ found ↔ p ∈ [1, 2, 3] ∧
        ∃ S, alpm_pkg_get_name (heap_shells p) = some S ∧ lowercase "sh" <:+: lowercase S) ∧
      (∀ p, alpm_pkg_get_name (heap_shells p) = none → p ∉ found) :=
  ⟨by decide,
   filter_str_substring Criteria.blank no_regex heap_shells [1, 2, 3] "sh" alpm_pkg_get_name
     rfl rfl⟩

/-- C9 (exact strategy). With `exact` on and `re` off, `filter_str` succeeds and
puts a record of the haystack among the matches iff its field value `S` is
present and the lowercase forms of `S` and of the term are the same string. -/
theorem filter_str_exact (g : Criteria) (rx : Regcomp) (heap : Ptr → alpm_pkg_t)
    (pkgs : List Ptr) (T : String) (func : alpm_pkg_t → Option String)
    (hre : g.re = false) (hex : g.exact = true) :
    ∃ found rest, filter_str g rx heap pkgs T func = some (found, rest) ∧
      ∀ p, p ∈ found ↔ p ∈ pkgs ∧ ∃ S, func (heap p) = some S ∧
        lowercase S = lowercase T := by
  have hmatch : ∀ p, str_match g.re g.exact rx T (func (heap p)) = true ↔
      ∃ S, func (heap p) = some S ∧ lowercase S = lowercase T := by
    intro p
    cases hS : func (heap p) with
    | none => simp [str_match]
    | some S => simp [str_match, hre, hex, strcasecmp_eq_zero]
  refine ⟨_, _, (filter_str_eq g rx heap pkgs T func).trans (if_pos (by simp [hre])), ?_⟩
  intro p
  rw [List.mem_filter, hmatch]

/-- Witness of C9: in Exact mode the term "BASH" matches bash and not zsh, and
the term "sh" of scenario 1 matches nothing. -/
theorem filter_str_exact_witness :
    filter_str { Criteria.blank with exact := true } no_regex heap_shells [1, 2] "BASH"
      alpm_pkg_get_name = some ([1], [2]) ∧
    filter_str { Criteria.blank with exact := true } no_regex heap_shells [1, 2] "sh"
      alpm_pkg_get_name = some ([], [1, 2]) ∧
    ∃ found rest,
      filter_str { Criteria.blank with exact := true } no_regex heap_shells [1, 2] "BASH"
        alpm_pkg_get_name = some (found, rest) ∧
      ∀ p, p ∈ found ↔ p ∈ [1, 2] ∧ ∃ S, alpm_pkg_get_name (heap_shells p) = some S ∧
        lowercase S = lowercase "BASH" :=
  ⟨by decide, by decide,
   filter_str_exact { Criteria.blank with exact := true } no_regex heap_shells [1, 2] "BASH"
     alpm_pkg_get_name rfl rfl⟩

/-- C10, as stated, fails: in Exact mode the term "base" does not match the
record whose only group is "Base", although the two are equal ignoring letter
case. -/
theorem group_exact_counterexample :
    ∃ found rest,
      filter_strlist { Criteria.blank with exact := true } no_regex heap_capital [1] "base"
        alpm_pkg_get_groups = some (found, rest) ∧
      ¬ (1 ∈ found ↔ ∃ e ∈ alpm_pkg_get_groups (heap_capital 1),
          lowercase e = lowercase "base") :=
  ⟨[], [1], by decide, by decide⟩

/-- C10, amended (group list under Exact). With `exact` on and `re` off,
`filter_strlist` succeeds and a record of the haystack matches the term iff the
term itself, letter case included, is an element of the record's list. -/
theorem group_exact_case_sensitive (g : Criteria) (rx : Regcomp) (heap : Ptr → alpm_pkg_t)
    (pkgs : List Ptr) (T : String) (func : alpm_pkg_t → List String)
    (hre : g.re = false) (hex : g.exact = true) :
    ∃ found rest, filter_strlist g rx heap pkgs T func = some (found, rest) ∧
      ∀ p, p ∈ found ↔ p ∈ pkgs ∧ T ∈ func (heap p) := by
  refine ⟨_, _,
    (filter_strlist_eq g rx heap pkgs T func).trans (if_pos (by simp [hre])), ?_⟩
  intro p
  rw [List.mem_filter]
  simp [strlist_match, hre, hex, alpm_list_find_str_isSome]

/-- Witness of C10 amended: in Exact mode the group term "devel" matches the
record in base and devel and not the record in base only. -/
theorem group_exact_case_sensitive_witness :
    filter_strlist { Criteria.blank with exact := true } no_regex heap_groups [1, 2] "devel"
      alpm_pkg_get_groups = some ([1], [2]) ∧
    ∃ found rest,
      filter_strlist { Criteria.blank with exact := true } no_regex heap_groups [1, 2] "devel"
        alpm_pkg_get_groups = some (found, rest) ∧
      ∀ p, p ∈ found ↔ p ∈ [1, 2] ∧ "devel" ∈ alpm_pkg_get_groups (heap_groups p) :=
  ⟨by decide,
   group_exact_case_sensitive { Criteria.blank with exact := true } no_regex heap_groups
     [1, 2] "devel" alpm_pkg_get_groups rfl rfl⟩

/-- C11 (root directory stripped from an owns-file term). For every root `R`
(passed with its length, as `filter_pkgs` does), term `T`, match mode and
haystack: when `T` starts with `R`, `filter_filelist` gives exactly what it
gives for `T` without its first `strlen R` characters and the empty root; when
`T` does not start with `R`, exactly what it gives for `T` and the empty root. -/
theorem root_stripped_once (g : Criteria) (rx : Regcomp) (heap : Ptr → alpm_pkg_t)
    (pkgs : List Ptr) (T R : String) :
    (R.data <+: T.data →
      filter_filelist g rx heap pkgs T R (strlen R)
        = filter_filelist g rx heap pkgs (String.mk (T.data.drop (strlen R))) "" (strlen "")) ∧
    (¬ R.data <+: T.data →
      filter_filelist g rx heap pkgs T R (strlen R)
        = filter_filelist g rx heap pkgs T "" (strlen "")) := by
  constructor
  · intro h
    rw [filter_filelist_skip g rx heap pkgs T R, skip_root_eq, if_pos h,
      filter_filelist_skip g rx heap pkgs (String.mk _) "", skip_root_empty]
  · intro h
    rw [filter_filelist_skip g rx heap pkgs T R, skip_root_eq, if_neg h,
      filter_filelist_skip g rx heap pkgs T "", skip_root_empty]

/-- Witness of C11: with root "/" the term "/usr/bin/foo" is compared as
"usr/bin/foo"; in Exact mode it matches the record that owns usr/bin/foo, just
as the term "usr/bin/foo" does with an empty root, and the term "usr/bin/foo"
with root "/" is left as it is. -/
theorem root_stripped_once_witness :
    skip_root "/usr/bin/foo" "/" (strlen "/") = "usr/bin/foo" ∧
    filter_filelist { Criteria.blank with exact := true } no_regex heap_files [1, 2, 3]
      "/usr/bin/foo" "/" (strlen "/") = some ([1], [2, 3]) ∧
    filter_filelist { Criteria.blank with exact := true } no_regex heap_files [1, 2, 3]
        "/usr/bin/foo" "/" (strlen "/")
      = filter_filelist { Criteria.blank with exact := true } no_regex heap_files [1, 2, 3]
        (String.mk ("/usr/bin/foo".data.drop (strlen "/"))) "" (strlen "") ∧
    filter_filelist { Criteria.blank with exact := true } no_regex heap_files [1, 2, 3]
        "usr/bin/foo" "/" (strlen "/")
      = filter_filelist { Criteria.blank with exact := true } no_regex heap_files [1, 2, 3]
        "usr/bin/foo" "" (strlen "") :=
  ⟨by decide, by decide,
   (root_stripped_once { Criteria.blank with exact := true } no_regex heap_files [1, 2, 3]
      "/usr/bin/foo" "/").1 (by decide),
   (root_stripped_once { Criteria.blank with exact := true } no_regex heap_files [1, 2, 3]
      "usr/bin/foo" "/").2 (by decide)⟩

/-- C12 (fatal configuration errors). The run fails iff regex mode is on and a
term of the name, description, packager, repo or group list, or a term of the
owns-file list once the root is stripped, does not compile, or a term of the
provides, depends, conflicts or replaces list does not parse as a dependency;
so whether it fails is the same for every input list. -/
theorem fatal_iff_invalid_term (g : Criteria) (rx : Regcomp) (heap : Ptr → alpm_pkg_t)
    (handle : alpm_handle_t) (pkgs : List Ptr) :
    (filter_pkgs g rx heap handle pkgs = none ↔
      (g.re = true ∧ ∃ t, (t ∈ g.name ∨ t ∈ g.description ∨ t ∈ g.packager ∨ t ∈ g.repo ∨
          t ∈ g.group) ∧ rx t = none) ∨
      (g.re = true ∧ ∃ t ∈ g.ownsfile,
        rx (skip_root t (alpm_option_get_root handle) (strlen (alpm_option_get_root handle)))
          = none) ∨
      (∃ t, (t ∈ g.provides ∨ t ∈ g.depends ∨ t ∈ g.conflicts ∨ t ∈ g.replaces) ∧
        alpm_dep_from_string t = none)) ∧
    (∀ pkgs1 : List Ptr,
      filter_pkgs g rx heap handle pkgs = none ↔ filter_pkgs g rx heap handle pkgs1 = none) := by
  refine ⟨?_, fun pkgs1 => by rw [filter_pkgs_none_iff, filter_pkgs_none_iff]⟩
  rw [filter_pkgs_none_iff]
  constructor
  · rintro ⟨f, t, ht, hok⟩
    cases f <;>
      simp only [term_ok, Criteria.terms, Bool.or_eq_false_iff, Bool.not_eq_false'] at ht hok
    · exact Or.inl ⟨hok.1, t, Or.inl ht, eq_none_of_isSome_false hok.2⟩
    · exact Or.inl ⟨hok.1, t, Or.inr (Or.inl ht), eq_none_of_isSome_false hok.2⟩
    · exact Or.inl ⟨hok.1, t, Or.inr (Or.inr (Or.inl ht)), eq_none_of_isSome_false hok.2⟩
    · exact Or.inl ⟨hok.1, t, Or.inr (Or.inr (Or.inr (Or.inl ht))), eq_none_of_isSome_false hok.2⟩
    · exact Or.inl ⟨hok.1, t, Or.inr (Or.inr (Or.inr (Or.inr ht))), eq_none_of_isSome_false hok.2⟩
    · exact Or.inr (Or.inl ⟨hok.1, t, ht, eq_none_of_isSome_false hok.2⟩)
    · exact Or.inr (Or.inr ⟨t, Or.inl ht, eq_none_of_isSome_false hok⟩)
    · exact Or.inr (Or.inr ⟨t, Or.inr (Or.inl ht), eq_none_of_isSome_false hok⟩)
    · exact Or.inr (Or.inr ⟨t, Or.inr (Or.inr (Or.inl ht)), eq_none_of_isSome_false hok⟩)
    · exact Or.inr (Or.inr ⟨t, Or.inr (Or.inr (Or.inr ht)), eq_none_of_isSome_false hok⟩)
  · have hstr : ∀ t, g.re = true → rx t = none → (!g.re || (rx t).isSome) = false := by
      intro t h1 h2
      simp [h1, h2]
    rintro (⟨hre, t, ht, hrx⟩ | ⟨hre, t, ht, hrx⟩ | ⟨t, ht, hd⟩)
    · rcases ht with ht | ht | ht | ht | ht
      · exact ⟨.name, t, ht, hstr t hre hrx⟩
      · exact ⟨.description, t, ht, hstr t hre hrx⟩
      · exact ⟨.packager, t, ht, hstr t hre hrx⟩
      · exact ⟨.repo, t, ht, hstr t hre hrx⟩
      · exact ⟨.group, t, ht, hstr t hre hrx⟩
    · exact ⟨.ownsfile, t, ht, hstr _ hre hrx⟩
    · have hdep : (alpm_dep_from_string t).isSome = false := by simp [hd]
      rcases ht with ht | ht | ht | ht
      · exact ⟨.provides, t, ht, hdep⟩
      · exact ⟨.depends, t, ht, hdep⟩
      · exact ⟨.conflicts, t, ht, hdep⟩
      · exact ⟨.replaces, t, ht, hdep⟩

/-- Witness of C12: in regex mode the name pattern "(" is fatal on the empty
input, and the group pattern "(" is fatal although the name term before it has
already narrowed the haystack to nothing. -/
theorem fatal_iff_invalid_term_witness :
    filter_pkgs { Criteria.blank with re := true, name := ["("] } plain_regex heap_shells
        root_handle [] = none ∧
    filter_pkgs { Criteria.blank with re := true, name := ["zsh"], group := ["("] } plain_regex
        heap_shells root_handle [1] = none :=
  ⟨(fatal_iff_invalid_term { Criteria.blank with re := true, name := ["("] } plain_regex
      heap_shells root_handle []).1.mpr (Or.inl ⟨rfl, "(", Or.inl (by decide), rfl⟩),
   (fatal_iff_invalid_term { Criteria.blank with re := true, name := ["zsh"], group := ["("] }
      plain_regex heap_shells root_handle [1]).1.mpr
      (Or.inl ⟨rfl, "(", Or.inr (Or.inr (Or.inr (Or.inr (by decide)))), rfl⟩)⟩

/-- Missing data, for records that `ptr_cmp` tells apart. In every match mode,
for every term that is valid (in regex mode: that compiles) and every haystack
whose addresses lie less than 2^31 apart, `filter_str` succeeds and leaves every
record whose value is absent out of the matches and in the haystack;
`filter_filelist` does the same for every record whose file list is empty; and
in an inverted run (default combine mode, valid terms) over an active name,
description, repo or owns-file field, an input record whose datum for that
field is missing is returned. -/
theorem missing_data_of_near (g : Criteria) (rx : Regcomp) (heap : Ptr → alpm_pkg_t)
    (pkgs : List Nat) (hn : near pkgs) (T : String) :
    (∀ func : alpm_pkg_t → Option String, (g.re = true → (rx T).isSome = true) →
      ∃ found rest, filter_str g rx heap pkgs T func = some (found, rest) ∧
        ∀ p, func (heap p) = none → p ∉ found ∧ (p ∈ pkgs → p ∈ rest)) ∧
    (∀ root : String, (g.re = true → (rx (skip_root T root (strlen root))).isSome = true) →
      ∃ found rest, filter_filelist g rx heap pkgs T root (strlen root) = some (found, rest) ∧
        ∀ p, alpm_pkg_get_files (heap p) = [] → p ∉ found ∧ (p ∈ pkgs → p ∈ rest)) ∧
    (∀ (handle : alpm_handle_t) (F : Field) (p : Ptr),
      g.invert = true → g.or = false → terms_valid g rx handle = true → g.terms F ≠ [] →
      p ∈ pkgs → missing_data F (heap p) = true →
      ∃ r, filter_pkgs g rx heap handle pkgs = some r ∧ p ∈ r) := by
  refine ⟨?_, ?_, ?_⟩
  · intro func hv
    have hok : (!g.re || (rx T).isSome) = true := by
      cases hre : g.re
      · rfl
      · simpa using hv hre
    refine ⟨_, _, (filter_str_eq g rx heap pkgs T func).trans (if_pos hok), ?_⟩
    intro p hnone
    rw [rest_after_near _ pkgs hn]
    simp only [List.mem_filter, hnone, str_match_none, Bool.false_eq_true, and_false,
      not_false_eq_true, Bool.not_false, and_true, imp_self]
  · intro root hv
    have hok : (!g.re || (rx (skip_root T root (strlen root))).isSome) = true := by
      cases hre : g.re
      · rfl
      · simpa using hv hre
    refine ⟨_, _, (filter_filelist_eq g rx heap pkgs T root (strlen root)).trans (if_pos hok), ?_⟩
    intro p hnone
    rw [rest_after_near _ pkgs hn]
    simp only [List.mem_filter, hnone, filelist_match_nil, Bool.false_eq_true, and_false,
      not_false_eq_true, Bool.not_false, and_true, imp_self]
  · intro handle F p hinv hor hv hF hp hmiss
    exact mem_inverted_of_unmatched g rx heap handle pkgs hn F p hor hinv hv hF hp
      (fun t _ => term_test_missing g rx heap handle F t p hmiss)

/-- An instance of `missing_data_of_near`: in regex mode the empty pattern
matches the two named records and not the record without a name, and matches
the two records with files and not the record without files; inverted, the
owns-file run returns the record without files. -/
theorem missing_data_of_near_example :
    filter_str { Criteria.blank with re := true } plain_regex heap_files [1, 2, 3] ""
      alpm_pkg_get_name = some ([1, 2], [3]) ∧
    filter_filelist { Criteria.blank with re := true } plain_regex heap_files [1, 2, 3] ""
      "/" (strlen "/") = some ([1, 2], [3]) ∧
    (∃ r, filter_pkgs { Criteria.blank with re := true, invert := true, ownsfile := [""] }
        plain_regex heap_files root_handle [1, 2, 3] = some r ∧ 3 ∈ r) :=
  ⟨by decide, by decide,
   (missing_data_of_near
      { Criteria.blank with re := true, invert := true, ownsfile := [""] } plain_regex
      heap_files [1, 2, 3] (by unfold near; decide) "").2.2 root_handle Field.ownsfile 3 rfl rfl
      (by decide) (by decide) (by decide) (by decide)⟩

/-- In every match mode and for every valid term, whatever the addresses,
`filter_str` succeeds and never puts a record whose value is absent among the
matches, and `filter_filelist` succeeds and never puts a record whose file list
is empty among the matches. -/
theorem missing_data_unmatched (g : Criteria) (rx : Regcomp) (heap : Ptr → alpm_pkg_t)
    (pkgs : List Ptr) (T : String) :
    (∀ func : alpm_pkg_t → Option String, (g.re = true → (rx T).isSome = true) →
      ∃ found rest, filter_str g rx heap pkgs T func = some (found, rest) ∧
        ∀ p, func (heap p) = none → p ∉ found) ∧
    (∀ root : String, (g.re = true → (rx (skip_root T root (strlen root))).isSome = true) →
      ∃ found rest, filter_filelist g rx heap pkgs T root (strlen root) = some (found, rest) ∧
        ∀ p, alpm_pkg_get_files (heap p) = [] → p ∉ found) := by
  refine ⟨?_, ?_⟩
  · intro func hv
    have hok : (!g.re || (rx T).isSome) = true := by
      cases hre : g.re
      · rfl
      · simpa using hv hre
    refine ⟨_, _, (filter_str_eq g rx heap pkgs T func).trans (if_pos hok), ?_⟩
    intro p hnone
    simp only [List.mem_filter, hnone, str_match_none, Bool.false_eq_true, and_false,
      not_false_eq_true]
  · intro root hv
    have hok : (!g.re || (rx (skip_root T root (strlen root))).isSome) = true := by
      cases hre : g.re
      · rfl
      · simpa using hv hre
    refine ⟨_, _, (filter_filelist_eq g rx heap pkgs T root (strlen root)).trans (if_pos hok), ?_⟩
    intro p hnone
    simp only [List.mem_filter, hnone, filelist_match_nil, Bool.false_eq_true, and_false,
      not_false_eq_true]

/-- C13, the code at two failing inputs. First, a record with the description
"GNU shell" and no packager: the packager field is read through
`alpm_pkg_get_desc`, so packager = ["shell"] returns the record and the
inverted run returns nothing, although its packager is absent. Second, a record
A without a name at address 4096 and the record B named bash 2^32 bytes
further: the term "bash" matches B only, `ptr_cmp` finds A equal to B, so A is
taken out of the haystack in place of B and the inverted run returns B, not
A. -/
theorem missing_data_not_inverted :
    alpm_pkg_get_packager (heap_no_packager 1) = none ∧
    filter_pkgs { Criteria.blank with packager := ["shell"] } no_regex heap_no_packager
        root_handle [1] = some [1] ∧
    filter_pkgs { Criteria.blank with packager := ["shell"], invert := true } no_regex
        heap_no_packager root_handle [1] = some [] ∧
    alpm_pkg_get_name (heap_far_missing 4096) = none ∧
    filter_str Criteria.blank no_regex heap_far_missing [4096, 4294971392] "bash"
        alpm_pkg_get_name = some ([4294971392], [4294971392]) ∧
    filter_pkgs { Criteria.blank with name := ["bash"], invert := true } no_regex
        heap_far_missing root_handle [4096, 4294971392] = some [4294971392] := by
  decide

/-- C15, as stated, fails: for name = ["bar", "foo"] and repo = ["core", "extra"]
over foo in core, foobar in extra and bar in core, `filter_pkgs` returns
bar, foo, foobar, while the pipeline in the order of the specification, repo
first, returns bar, foobar, foo. -/
theorem field_order_counterexample :
    filter_pkgs { Criteria.blank with name := ["bar", "foo"], repo := ["core", "extra"] }
        no_regex heap_repos root_handle [1, 2, 3] = some [3, 1, 2] ∧
    pipeline Field.spec_order
        { Criteria.blank with name := ["bar", "foo"], repo := ["core", "extra"] }
        no_regex heap_repos root_handle [1, 2, 3] = some [3, 2, 1] ∧
    filter_pkgs { Criteria.blank with name := ["bar", "foo"], repo := ["core", "extra"] }
        no_regex heap_repos root_handle [1, 2, 3]
      ≠ pipeline Field.spec_order
        { Criteria.blank with name := ["bar", "foo"], repo := ["core", "extra"] }
        no_regex heap_repos root_handle [1, 2, 3] := by
  decide

/-- C15, amended (fixed field order). For every input and criteria `filter_pkgs`
equals, as a result, the reference pipeline that applies the per-field step in
the order name, description, packager, repo, group, owns-file, provides,
depends, conflicts, replaces.  The pipeline in the order of the specification
(repo first) fails on exactly the same criteria, and in the default combine
mode it returns the same list when no field has more than one term. -/
theorem field_order_of_the_code (g : Criteria) (rx : Regcomp) (heap : Ptr → alpm_pkg_t)
    (handle : alpm_handle_t) (pkgs : List Ptr) :
    Field.all = [.name, .description, .packager, .repo, .group, .ownsfile,
      .provides, .depends, .conflicts, .replaces] ∧
    filter_pkgs g rx heap handle pkgs = pipeline Field.all g rx heap handle pkgs ∧
    (filter_pkgs g rx heap handle pkgs = none ↔
      pipeline Field.spec_order g rx heap handle pkgs = none) ∧
    (g.or = false → (∀ f, (g.terms f).length ≤ 1) →
      filter_pkgs g rx heap handle pkgs
        = pipeline Field.spec_order g rx heap handle pkgs) := by
  refine ⟨rfl, rfl, ?_, ?_⟩
  · rw [filter_pkgs_none_iff, pipeline_none_iff Field.spec_order mem_spec_order]
  · intro hor hone
    cases hnone : filter_pkgs g rx heap handle pkgs with
    | none =>
      rw [filter_pkgs_none_iff] at hnone
      exact ((pipeline_none_iff Field.spec_order mem_spec_order g rx heap handle pkgs).mpr
        hnone).symm
    | some r =>
      have hv := valid_of_some g rx heap handle pkgs r hnone
      rw [← hnone, filter_pkgs_eq_pipeline, pipeline_and Field.all g rx heap handle pkgs hor hv,
        pipeline_and Field.spec_order g rx heap handle pkgs hor hv,
        fold_narrowed_single g rx heap handle hone, fold_narrowed_single g rx heap handle hone]
      simp only [all_fields_order Field.spec_order mem_spec_order]

/-- Witness of C15 amended (scenario 4): for name = ["foo"] and repo = ["core"]
the code and the pipeline in the order of the specification both return foo. -/
theorem field_order_of_the_code_witness :
    filter_pkgs { Criteria.blank with name := ["foo"], repo := ["core"] } no_regex heap_repos
        root_handle [1, 2, 3] = some [1] ∧
    filter_pkgs { Criteria.blank with name := ["foo"], repo := ["core"] } no_regex heap_repos
        root_handle [1, 2, 3]
      = pipeline Field.spec_order { Criteria.blank with name := ["foo"], repo := ["core"] }
        no_regex heap_repos root_handle [1, 2, 3] :=
  ⟨by decide,
   (field_order_of_the_code { Criteria.blank with name := ["foo"], repo := ["core"] } no_regex
      heap_repos root_handle [1, 2, 3]).2.2.2 rfl (by intro f; cases f <;> decide)⟩

/-- The order of the fields and the set of records returned. With `invert` off,
the default combine mode and input addresses less than 2^31 apart, the code and
the pipeline in the order of the specification return the same records, for any
number of terms per field. -/
theorem spec_order_same_records_of_near (g : Criteria) (rx : Regcomp)
    (heap : Ptr → alpm_pkg_t) (handle : alpm_handle_t) (pkgs r r1 : List Nat)
    (hn : near pkgs) (hor : g.or = false) (hinv : g.invert = false)
    (hr : filter_pkgs g rx heap handle pkgs = some r)
    (hr1 : pipeline Field.spec_order g rx heap handle pkgs = some r1) :
    ∀ p, p ∈ r ↔ p ∈ r1 := by
  have hv := valid_of_some g rx heap handle pkgs r hr
  rw [filter_pkgs_eq_pipeline, pipeline_and Field.all g rx heap handle pkgs hor hv, hinv,
    fold_narrowed_eq g rx heap handle _ pkgs hn] at hr
  rw [pipeline_and Field.spec_order g rx heap handle pkgs hor hv, hinv,
    fold_narrowed_eq g rx heap handle _ pkgs hn] at hr1
  simp only [Bool.false_eq_true, if_false, Option.some.injEq] at hr hr1
  intro p
  rw [← hr, ← hr1, mem_fold_narrow, mem_fold_narrow]
  constructor
  · rintro ⟨hp, hall⟩
    exact ⟨hp, fun f _ => hall f (mem_all_fields f)⟩
  · rintro ⟨hp, hall⟩
    exact ⟨hp, fun f _ => hall f (mem_spec_order f)⟩

/-- The order of the fields matters to the set of records once `ptr_cmp` finds
two records equal: with A ("zz" in "qq") at address 4096 and B ("ab" in "pp")
2^32 bytes further, name = ["ab", "zz"] and repo = ["qq"] return nothing in the
order of the code and A in the order of the specification. -/
theorem spec_order_far_records :
    filter_pkgs { Criteria.blank with name := ["ab", "zz"], repo := ["qq"] } no_regex heap_far
        root_handle [4096, 4294971392] = some [] ∧
    pipeline Field.spec_order { Criteria.blank with name := ["ab", "zz"], repo := ["qq"] }
        no_regex heap_far root_handle [4096, 4294971392] = some [4096] := by
  decide

/-- Exact is stricter than Substring over the whole pipeline, for records that
`ptr_cmp` tells apart. With regex off, `invert` off, the default combine mode,
valid terms and input addresses less than 2^31 apart, the run in Exact mode and
the run in Substring mode both succeed, and every record the Exact run returns
is returned by the Substring run. -/
theorem exact_within_substring_of_near (g : Criteria) (rx : Regcomp)
    (heap : Ptr → alpm_pkg_t) (handle : alpm_handle_t) (pkgs : List Nat) (hn : near pkgs)
    (hre : g.re = false) (hinv : g.invert = false) (hor : g.or = false)
    (hv : terms_valid g rx handle = true) :
    ∃ r_exact r_sub,
      filter_pkgs { g with exact := true } rx heap handle pkgs = some r_exact ∧
      filter_pkgs { g with exact := false } rx heap handle pkgs = some r_sub ∧
      ∀ p, p ∈ r_exact → p ∈ r_sub := by
  obtain ⟨re, hre1, hmem1⟩ := mem_filter_pkgs_and { g with exact := true } rx heap handle pkgs
    hn hor hinv ((terms_valid_exact g true rx handle).trans hv)
  obtain ⟨rs, hrs1, hmem2⟩ := mem_filter_pkgs_and { g with exact := false } rx heap handle pkgs
    hn hor hinv ((terms_valid_exact g false rx handle).trans hv)
  refine ⟨re, rs, hre1, hrs1, fun p hp => ?_⟩
  rw [hmem2]
  obtain ⟨hp1, hall⟩ := (hmem1 p).mp hp
  refine ⟨hp1, fun f hf => ?_⟩
  obtain ⟨t, ht, htest⟩ := hall f hf
  exact ⟨t, ht, term_test_exact_imp g rx heap handle f t p hre htest⟩

/-- An instance of `exact_within_substring_of_near`: for name = ["foo"] and
repo = ["core"] over foo in core, foobar in extra and bar in core, the Exact run
and the Substring run both return foo; for name = ["foo"] alone Exact returns
foo and Substring foo and foobar. -/
theorem exact_within_substring_of_near_example :
    filter_pkgs { Criteria.blank with name := ["foo"], exact := true } no_regex heap_repos
        root_handle [1, 2, 3] = some [1] ∧
    filter_pkgs { Criteria.blank with name := ["foo"], exact := false } no_regex heap_repos
        root_handle [1, 2, 3] = some [1, 2] ∧
    ∃ r_exact r_sub,
      filter_pkgs { Criteria.blank with name := ["foo"], repo := ["core"], exact := true }
        no_regex heap_repos root_handle [1, 2, 3] = some r_exact ∧
      filter_pkgs { Criteria.blank with name := ["foo"], repo := ["core"], exact := false }
        no_regex heap_repos root_handle [1, 2, 3] = some r_sub ∧
      ∀ p, p ∈ r_exact → p ∈ r_sub :=
  ⟨by decide, by decide,
   exact_within_substring_of_near { Criteria.blank with name := ["foo"], repo := ["core"] }
     no_regex heap_repos root_handle [1, 2, 3] (by unfold near; decide) rfl rfl rfl
     (by decide)⟩

/-- C16, the code at the failing input. Record A at address 4096 is named "zz"
and record B, 2^32 bytes further, is named "ab". With name = ["a", "zz"] the
Exact run returns A. In the Substring run the term "a" matches B,
`alpm_list_remove` takes A out of the haystack in its place, and "zz" finds
nothing left to match: the run returns B alone, so A is returned in Exact mode
and not in Substring mode. -/
theorem exact_within_substring_far_records :
    filter_pkgs { Criteria.blank with name := ["a", "zz"], exact := true } no_regex heap_far
        root_handle [4096, 4294971392] = some [4096] ∧
    filter_pkgs { Criteria.blank with name := ["a", "zz"], exact := false } no_regex heap_far
        root_handle [4096, 4294971392] = some [4294971392] ∧
    terms_valid { Criteria.blank with name := ["a", "zz"] } no_regex root_handle = true := by
  decide

/-- C17 (single-term stable filter). When no field has more than one term,
`invert` is off, the combine mode is the default and the terms are valid, the
run returns the input list filtered in place: the records, in input order, that
pass the test of the one term of every active field. -/
theorem single_term_stable_filter (g : Criteria) (rx : Regcomp) (heap : Ptr → alpm_pkg_t)
    (handle : alpm_handle_t) (pkgs : List Ptr)
    (hone : ∀ f, (g.terms f).length ≤ 1) (hinv : g.invert = false) (hor : g.or = false)
    (hv : terms_valid g rx handle = true) :
    filter_pkgs g rx heap handle pkgs
      = some (pkgs.filter (fun p => Field.all.all (fun f =>
          (g.terms f).all (fun t => term_test g rx heap handle f t p)))) := by
  rw [filter_pkgs_and g rx heap handle pkgs hor hv, hinv,
    fold_narrowed_single g rx heap handle hone]
  rfl

/-- Witness of C17 (scenario 4): name = ["foo"] and repo = ["core"] over bar in
core, foobar in extra, foo in core and foo in core again returns the two
occurrences of foo. -/
theorem single_term_stable_filter_witness :
    filter_pkgs { Criteria.blank with name := ["foo"], repo := ["core"] } no_regex heap_repos
        root_handle [3, 2, 1, 1] = some [1, 1] ∧
    filter_pkgs { Criteria.blank with name := ["foo"], repo := ["core"] } no_regex heap_repos
        root_handle [3, 2, 1, 1]
      = some ([3, 2, 1, 1].filter (fun p => Field.all.all (fun f =>
          (Criteria.terms { Criteria.blank with name := ["foo"], repo := ["core"] } f).all
            (fun t => term_test { Criteria.blank with name := ["foo"], repo := ["core"] }
              no_regex heap_repos root_handle f t p)))) :=
  ⟨by decide,
   single_term_stable_filter { Criteria.blank with name := ["foo"], repo := ["core"] }
     no_regex heap_repos root_handle [3, 2, 1, 1] (by intro f; cases f <;> decide) rfl rfl
     (by decide)⟩


/-- Idempotence, for records that `ptr_cmp` tells apart. With `invert` off, the
default combine mode and input addresses less than 2^31 apart, for any number of
terms per field: when the run over `pkgs` succeeds with the list `r`, the run
with the same criteria over `r` succeeds with the same list `r`. -/
theorem idempotent_of_near (g : Criteria) (rx : Regcomp) (heap : Ptr → alpm_pkg_t)
    (handle : alpm_handle_t) (pkgs r : List Nat) (hn : near pkgs)
    (hinv : g.invert = false) (hor : g.or = false)
    (hr : filter_pkgs g rx heap handle pkgs = some r) :
    filter_pkgs g rx heap handle r = some r := by
  have hv := valid_of_some g rx heap handle pkgs r hr
  rw [filter_pkgs_and_near g rx heap handle pkgs hn hor hv, hinv] at hr
  simp only [Bool.false_eq_true, if_false, Option.some.injEq] at hr
  have hnr : near r := by
    rw [← hr]
    exact near_of_subset (fun x hx => ((mem_fold_narrow g rx heap handle _ _ x).mp hx).1) hn
  rw [filter_pkgs_and_near g rx heap handle r hnr hor hv, hinv, ← hr, fold_narrow_idem]
  rfl

/-- An instance of `idempotent_of_near`: name = ["bar", "foo"] and
repo = ["core", "extra"] over foo in core, foobar in extra and bar in core gives
bar, foo, foobar, and the same criteria over bar, foo, foobar give that list
again. -/
theorem idempotent_of_near_example :
    filter_pkgs { Criteria.blank with name := ["bar", "foo"], repo := ["core", "extra"] }
        no_regex heap_repos root_handle [1, 2, 3] = some [3, 1, 2] ∧
    filter_pkgs { Criteria.blank with name := ["bar", "foo"], repo := ["core", "extra"] }
        no_regex heap_repos root_handle [3, 1, 2] = some [3, 1, 2] :=
  ⟨by decide,
   idempotent_of_near { Criteria.blank with name := ["bar", "foo"], repo := ["core", "extra"] }
     no_regex heap_repos root_handle [1, 2, 3] [3, 1, 2] (by unfold near; decide) rfl rfl
     (by decide)⟩

/-- C18, the code at the failing input. Records A ("a"), B ("bk") and C ("cck")
lie 2^32 bytes apart, so `ptr_cmp` finds them all equal. With
name = ["cc", "k"] the run over A, B, C returns C, B, C: the match of "cc" takes
A out of the haystack in place of C, and "k" then matches B and C. The same
criteria over C, B, C return C, C, C, which is another list. -/
theorem filter_idempotent_far_records :
    filter_pkgs { Criteria.blank with name := ["cc", "k"] } no_regex heap_far3
        root_handle [4096, 4294971392, 8589938688]
      = some [8589938688, 4294971392, 8589938688] ∧
    filter_pkgs { Criteria.blank with name := ["cc", "k"] } no_regex heap_far3
        root_handle [8589938688, 4294971392, 8589938688]
      = some [8589938688, 8589938688, 8589938688] := by
  decide

/-- The result is drawn from the input, for records that `ptr_cmp` tells apart.
For every input whose addresses lie less than 2^31 apart and every criteria on
which filtering succeeds, the result is, up to order, a sublist of the input:
every returned record is in the input and occurs in the result no more often
than in the input; for a duplicate-free input the result is duplicate-free, so
every returned record occurs exactly once. -/
theorem within_input_of_near (g : Criteria) (rx : Regcomp) (heap : Ptr → alpm_pkg_t)
    (handle : alpm_handle_t) (pkgs r : List Nat) (hn : near pkgs)
    (hr : filter_pkgs g rx heap handle pkgs = some r) :
    (∀ p, p ∈ r → p ∈ pkgs) ∧ (∀ p, r.count p ≤ pkgs.count p) ∧
    (pkgs.Nodup → r.Nodup ∧ ∀ p, p ∈ r → r.count p = 1) := by
  have hsub := filter_pkgs_subperm g rx heap handle pkgs r hn hr
  refine ⟨fun p hp => hsub.subset hp, fun p => hsub.count_le p, fun hnd => ?_⟩
  have hrn := subperm_nodup hsub hnd
  exact ⟨hrn, fun p hp => List.count_eq_one_of_mem hrn hp⟩

/-- An instance of `within_input_of_near`: name = ["sh", "bash", "ba"] over bash
and zsh: all three terms match bash, which is returned once. -/
theorem within_input_of_near_example :
    filter_pkgs { Criteria.blank with name := ["sh", "bash", "ba"] } no_regex heap_shells
        root_handle [1, 2] = some [1, 2] ∧
    (∀ p, p ∈ [1, 2] → p ∈ [1, 2]) ∧ (∀ p, [1, 2].count p ≤ [1, 2].count p) ∧
    (List.Nodup [1, 2] → List.Nodup [1, 2] ∧ ∀ p, p ∈ [1, 2] → [1, 2].count p = 1) :=
  ⟨by decide,
   within_input_of_near { Criteria.blank with name := ["sh", "bash", "ba"] } no_regex
     heap_shells root_handle [1, 2] [1, 2] (by unfold near; decide) (by decide)⟩

/-- C19, the code at the failing input. Record A at address 4096 is named "a"
and record B, 2^32 bytes further, is named "bk". With name = ["b", "bk"] over
the duplicate-free input A, B the term "b" matches B, `alpm_list_remove` takes
A out of the haystack in its place, and "bk" matches B again: the run returns
B twice, although B occurs once in the input. -/
theorem result_within_input_far_records :
    List.Nodup [4096, 4294971392] ∧
    filter_pkgs { Criteria.blank with name := ["b", "bk"] } no_regex heap_far3
        root_handle [4096, 4294971392] = some [4294971392, 4294971392] ∧
    List.count 4294971392 [4294971392, 4294971392] = 2 ∧
    List.count 4294971392 [4096, 4294971392] = 1 := by
  decide

/-- C20 (regex and exact both on). With both flags on, the filters of the name,
description, packager, repo, group and owns-file fields are the filters of the
regex-only mode, and the filters of the four dependency fields are those of the
exact-only mode, for which a term without a version matches exactly the records
with an entry of that name that has the operator of the term and no version. -/
theorem regex_and_exact_both (g : Criteria) (rx : Regcomp) (heap : Ptr → alpm_pkg_t)
    (handle : alpm_handle_t) (hre : g.re = true) (hex : g.exact = true) :
    (∀ f ∈ [Field.name, .description, .packager, .repo, .group, .ownsfile],
      field_filter g rx heap handle f = field_filter { g with exact := false } rx heap handle f) ∧
    (∀ f ∈ [Field.provides, .depends, .conflicts, .replaces],
      field_filter g rx heap handle f = field_filter { g with re := false } rx heap handle f) ∧
    (∀ (pkgs : List Ptr) (str : String) (func : alpm_pkg_t → List alpm_depend_t)
      (needle : alpm_depend_t),
      alpm_dep_from_string str = some needle → needle.version = none →
      ∃ found rest, filter_deplist g heap pkgs str func = some (found, rest) ∧
        ∀ p, p ∈ found ↔ p ∈ pkgs ∧ ∃ d ∈ func (heap p),
          d.name = needle.name ∧ d.mod = needle.mod ∧ d.version = none) := by
  refine ⟨?_, ?_, ?_⟩
  · intro f hf
    simp only [List.mem_cons, List.mem_singleton, List.not_mem_nil, or_false] at hf
    rcases hf with rfl | rfl | rfl | rfl | rfl | rfl <;>
      funext h i <;>
      simp only [field_filter, filter_str, filter_strlist, filter_filelist, hre, if_true]
  · intro f hf
    simp only [List.mem_cons, List.mem_singleton, List.not_mem_nil, or_false] at hf
    rcases hf with rfl | rfl | rfl | rfl <;> rfl
  · intro pkgs str func needle hparse hver
    refine ⟨_, _,
      (filter_deplist_eq g heap pkgs str func).trans (if_pos (by simp [hparse])), ?_⟩
    intro p
    rw [List.mem_filter]
    simp only [deplist_match, hparse, alpm_list_find_isSome, depcmp_eq_zero, hver, hex,
      Bool.true_eq_false, and_false, false_or]
    constructor
    · rintro ⟨hp, d, hd, hname, hmod, hv⟩
      refine ⟨hp, d, hd, hname, hmod, ?_⟩
      cases hdv : d.version with
      | none => rfl
      | some v => rw [hdv] at hv; simp [alpm_pkg_vercmp] at hv
    · rintro ⟨hp, d, hd, hname, hmod, hv⟩
      exact ⟨hp, d, hd, hname, hmod, by rw [hv]; rfl⟩

/-- Witness of C20: with both flags on, the dependency term "glibc" matches the
record that depends on glibc without a version and not the one that depends on
glibc>=2.30, as in exact-only mode, while in regex-only mode it matches both;
and the name pattern "sh" matches bash and zsh as in regex-only mode. -/
theorem regex_and_exact_both_witness :
    filter_pkgs { Criteria.blank with re := true, exact := true, depends := ["glibc"] }
        plain_regex heap_unversioned root_handle [1, 2] = some [1] ∧
    filter_pkgs { Criteria.blank with re := true, depends := ["glibc"] }
        plain_regex heap_unversioned root_handle [1, 2] = some [1, 2] ∧
    filter_pkgs { Criteria.blank with re := true, exact := true, name := ["sh"] }
        plain_regex heap_shells root_handle [1, 2] = some [1, 2] ∧
    field_filter { Criteria.blank with re := true, exact := true } plain_regex heap_shells
        root_handle Field.name
      = field_filter { Criteria.blank with re := true, exact := false } plain_regex heap_shells
        root_handle Field.name :=
  ⟨by decide, by decide, by decide,
   (regex_and_exact_both { Criteria.blank with re := true, exact := true } plain_regex
      heap_shells root_handle rfl rfl).1 Field.name (by decide)⟩

end Pacsift
